import Mathlib

/-!
Verification development for the binance-websocket-experiment repository.

The definitions below are shallow embeddings of the C++ sources:
  * `src/include/merge/stream_merger.hpp`   (iovec-batched `StreamMerger`)
  * `src/include/stream_merger.hpp`         (string-buffered `StreamMerger`)
  * `src/include/lockfree/ring.hpp`         (`lockfree::Ring`, the SPSC slot recycler)
  * `src/include/net/backoff.hpp`           (`retry::Backoff`)
  * `src/include/util/latency.hpp`          (`lat::ExtractEventTimestampMs`)
  * `src/include/logging/logger.hpp`        (`FileLogger`)
  * `src/include/core/runner.hpp`           (`Run`)

Byte strings are modelled as `List Char`; the embedding is exact for ASCII
payloads (the C++ code scans bytes, one `Char` per byte here).  Machine
integers are modelled as `Nat`/`Int`; where C++ overflow or wrap-around could
matter the theorems carry explicit range hypotheses.  Steady-clock time points
are milliseconds as `Nat`.
-/

namespace BinanceWs

/-- The `{` byte, written via its code point so payload literals stay plain. -/
def lbrace : Char := Char.ofNat 123

/-- The `}` byte. -/
def rbrace : Char := Char.ofNat 125

/-- The `"` byte. -/
def quot : Char := Char.ofNat 34

/-- Numeric value of a run of ASCII digits, most significant first
(the accumulator loop `value = value * 10 + (c - '0')` of the C++ scanners). -/
def digitsToNat (ds : List Char) : Nat :=
  ds.foldl (fun a c => a * 10 + (c.toNat - 48)) 0

/-- Same accumulator loop performed on a signed 64-bit value in the C++
sources; modelled on unbounded `Int`. -/
def digitsToInt (ds : List Char) : Int :=
  ds.foldl (fun a c => a * 10 + ((c.toNat : Int) - 48)) 0

/-- `std::string_view::find(pat)`: the suffix of `s` beginning at the first
occurrence of `pat`, or `none` when there is no occurrence. -/
def findSub (pat : List Char) : List Char → Option (List Char)
  | [] => if pat.isEmpty then some [] else none
  | c :: rest =>
    if pat.isPrefixOf (c :: rest) then some (c :: rest) else findSub pat rest

/-- The three-byte token `"u"` searched by `StreamMerger::ExtractUpdateId`. -/
def uTok : List Char := [quot, 'u', quot]

/-- The four-byte token `"E":` searched by `lat::ExtractEventTimestampMs`. -/
def eTok : List Char := [quot, 'E', quot, ':']

/-- `StreamMerger::ExtractUpdateId` (identical in both merger headers):
find `"u"`, find the next `:`, skip bytes `≤ ' '`, then read an unsigned
decimal with `std::from_chars` — which fails when no digit is consumed or the
value overflows `uint64_t` (`result_out_of_range`). -/
def ExtractUpdateId (s : List Char) : Option Nat :=
  match findSub uTok s with
  | none => none
  | some suf =>
    match suf.dropWhile (fun c => c ≠ ':') with
    | [] => none
    | _ :: afterColon =>
      let t := afterColon.dropWhile (fun c => c.toNat ≤ 32)
      let ds := t.takeWhile Char.isDigit
      if ds.isEmpty then none
      else if digitsToNat ds < 2 ^ 64 then some (digitsToNat ds) else none

/-- `lat::ExtractEventTimestampMs` from `src/include/util/latency.hpp`:
find the exact token `"E":`, then accumulate the decimal digits immediately
after it (no whitespace skipping, no sign); `0` when the token is absent.
The C++ digit loop stops at the terminating NUL, modelled by the end of the
list. -/
def ExtractEventTimestampMs (s : List Char) : Int :=
  match findSub eTok s with
  | none => 0
  | some suf => digitsToInt ((suf.drop 4).takeWhile Char.isDigit)

/-! ## The iovec-batched merger (`src/include/merge/stream_merger.hpp`) -/

/-- `StreamMerger::BufEntry` of the iovec-batched merger: update id, steady
arrival time at the merger (ms), source ring index, raw payload bytes. -/
structure BufEntry where
  u : Nat
  first_seen : Nat
  src : Nat
  buf : List Char
  deriving Repr, DecidableEq

/-- `std::priority_queue` with `MinCmp` (`a.u > b.u`), modelled as a list kept
sorted by ascending `u`; an entry with an equal `u` is placed after the ones
already present. -/
def insertByU (e : BufEntry) : List BufEntry → List BufEntry
  | [] => [e]
  | x :: xs => if e.u < x.u then e :: x :: xs else x :: insertByU e xs

/-- The hold-back window `StreamMerger::kHoldback_` (milliseconds). -/
def kHoldback : Nat := 20

/-- The `while (!minheap_.empty())` loop of the iovec `FlushReady`.
Arguments: current time, heap, local `last_u`, the pending batch with its
`iov_cnt`, and the writes already performed inside this pass.  Returns the
remaining heap, the final local `last_u`, the pending batch and `iov_cnt`,
and the mid-loop vectored writes (each a full 64-entry batch). -/
def flushLoop (now : Nat) :
    List BufEntry → Nat → List BufEntry → Nat → List (List BufEntry) →
    List BufEntry × Nat × List BufEntry × Nat × List (List BufEntry)
  | [], lastU, batch, iovCnt, ws => ([], lastU, batch, iovCnt, ws)
  | top :: rest, lastU, batch, iovCnt, ws =>
    if top.u ≤ lastU then
      -- late duplicate observed at pop time: popped, NOT released
      flushLoop now rest lastU batch iovCnt ws
    else if now - top.first_seen < kHoldback then
      (top :: rest, lastU, batch, iovCnt, ws)
    else
      let batch' := batch ++ [top]
      let iov' := iovCnt + 2
      if 128 ≤ iov' then flushLoop now rest top.u [] 0 (ws ++ [batch'])
      else flushLoop now rest top.u batch' iov' ws

/-- `StreamMerger::FlushReady` (iovec variant), as a pure function of the
merger's `(last_emitted_u_, minheap_)` state: returns the vectored writes of
the pass (in order), the new `last_emitted_u_`, and the new heap.  Note that
`last_emitted_u_ = last_u` is executed only in the tail `if (iov_cnt > 0)`
block, so a pass whose final write was a full mid-loop batch leaves
`last_emitted_u_` unchanged. -/
def FlushReady (now lastU : Nat) (heap : List BufEntry) :
    List (List BufEntry) × Nat × List BufEntry :=
  let r := flushLoop now heap lastU [] 0 []
  let heap' := r.1
  let lastU' := r.2.1
  let batch := r.2.2.1
  let iovCnt := r.2.2.2.1
  let midWs := r.2.2.2.2
  if 0 < iovCnt then (midWs ++ [batch], lastU', heap') else (midWs, lastU, heap')

/-- Inner loop of the iovec `DrainAll`:
`while (!minheap_.empty() && iov_cnt <= 126)`, popping every entry and
batching only those with `e.u > last_u`. -/
def drainInner : Nat → List BufEntry → List BufEntry → Nat →
    List BufEntry × Nat × List BufEntry × Nat
  | lastU, [], batch, iovCnt => ([], lastU, batch, iovCnt)
  | lastU, e :: rest, batch, iovCnt =>
    if ¬ iovCnt ≤ 126 then (e :: rest, lastU, batch, iovCnt)
    else if lastU < e.u then drainInner e.u rest (batch ++ [e]) (iovCnt + 2)
    else drainInner lastU rest batch iovCnt

/-- Outer loop of the iovec `DrainAll`; `fuel` bounds the number of outer
iterations (each pops at least one entry, so `heap.length` is enough). -/
def drainOuter : Nat → Nat → List BufEntry → List (List BufEntry) →
    List (List BufEntry) × Nat × List BufEntry
  | 0, lastU, heap, ws => (ws, lastU, heap)
  | fuel + 1, lastU, heap, ws =>
    if heap.isEmpty then (ws, lastU, heap)
    else
      let r := drainInner lastU heap [] 0
      let heap' := r.1
      let lastU' := r.2.1
      let batch := r.2.2.1
      let iovCnt := r.2.2.2
      if 0 < iovCnt then drainOuter fuel lastU' heap' (ws ++ [batch])
      else drainOuter fuel lastU heap' ws

/-- `StreamMerger::DrainAll` (iovec variant) on the merger state: the vectored
writes, the final `last_emitted_u_`, and the final heap. -/
def DrainAll (lastU : Nat) (heap : List BufEntry) :
    List (List BufEntry) × Nat × List BufEntry :=
  drainOuter heap.length lastU heap []

/-- Reference flush recursion shared by the equivalence proofs: pop late
duplicates, stop at the first entry inside the hold-back window, emit the
rest in heap order.  Returns the emitted entries, the final `last_u`, and the
remaining heap. -/
def flushSpec (now : Nat) : Nat → List BufEntry → List BufEntry × Nat × List BufEntry
  | lastU, [] => ([], lastU, [])
  | lastU, top :: rest =>
    if top.u ≤ lastU then flushSpec now lastU rest
    else if now - top.first_seen < kHoldback then ([], lastU, top :: rest)
    else
      let r := flushSpec now top.u rest
      (top :: r.1, r.2.1, r.2.2)

/-- Reference drain recursion: pop everything, keeping entries with
`last_u < e.u`. -/
def drainSpec : Nat → List BufEntry → List BufEntry × Nat
  | lastU, [] => ([], lastU)
  | lastU, e :: rest =>
    if lastU < e.u then
      let r := drainSpec e.u rest
      (e :: r.1, r.2)
    else drainSpec lastU rest

/-! ## The string-buffered merger (`src/include/stream_merger.hpp`) -/

/-- `StreamMerger::BufEntry` of the string-buffered merger: no source index,
the payload is an owned `std::string`. -/
structure StrEntry where
  u : Nat
  first_seen : Nat
  payload : List Char
  deriving Repr, DecidableEq

/-- Heap insertion for the string-buffered merger (same comparator). -/
def insertStrByU (e : StrEntry) : List StrEntry → List StrEntry
  | [] => [e]
  | x :: xs => if e.u < x.u then e :: x :: xs else x :: insertStrByU e xs

/-- `buffer.capacity() - 2` after `buffer.reserve(64 * 512)`.  The embedding
fixes the capacity at the reserved 32768 bytes; it is exact for every pass
whose coalesced buffer stays within the reservation (all runs considered
here), since `std::string` growth beyond a reservation is
implementation-defined. -/
def strCapLimit : Nat := 64 * 512 - 2

/-- The `while (!minheap_.empty() && buffer.size() < buffer.capacity() - 2)`
loop of the string-buffered `FlushReady`.  `size` is `buffer.size()`;
appending an entry adds `payload.length + 1` bytes.  Returns the remaining
heap, the local `last_u`, and the appended entries in order. -/
def flushStrLoop (now : Nat) :
    List StrEntry → Nat → List StrEntry → Nat →
    List StrEntry × Nat × List StrEntry
  | [], lastU, acc, _ => ([], lastU, acc)
  | e :: rest, lastU, acc, size =>
    if ¬ size < strCapLimit then (e :: rest, lastU, acc)
    else if e.u ≤ lastU then flushStrLoop now rest lastU acc size
    else if now - e.first_seen < kHoldback then (e :: rest, lastU, acc)
    else flushStrLoop now rest e.u (acc ++ [e]) (size + e.payload.length + 1)

/-- `StreamMerger::FlushReady` (string-buffered variant): one coalesced write
per pass; `last_emitted_u_` is updated iff the buffer is non-empty. -/
def FlushReadyStr (now lastU : Nat) (heap : List StrEntry) :
    List (List StrEntry) × Nat × List StrEntry :=
  let r := flushStrLoop now heap lastU [] 0
  let heap' := r.1
  let lastU' := r.2.1
  let acc := r.2.2
  if acc.isEmpty then ([], lastU, heap') else ([acc], lastU', heap')

/-- Inner loop of the string-buffered `DrainAll`: pops every entry while the
buffer has room, appending those with `e.u > last_u`. -/
def drainStrInner : Nat → List StrEntry → List StrEntry → Nat →
    List StrEntry × Nat × List StrEntry
  | lastU, [], acc, _ => ([], lastU, acc)
  | lastU, e :: rest, acc, size =>
    if ¬ size < strCapLimit then (e :: rest, lastU, acc)
    else if lastU < e.u then
      drainStrInner e.u rest (acc ++ [e]) (size + e.payload.length + 1)
    else drainStrInner lastU rest acc size

/-- Outer loop of the string-buffered `DrainAll` (fuelled like `drainOuter`). -/
def drainStrOuter : Nat → Nat → List StrEntry → List (List StrEntry) →
    List (List StrEntry) × Nat × List StrEntry
  | 0, lastU, heap, ws => (ws, lastU, heap)
  | fuel + 1, lastU, heap, ws =>
    if heap.isEmpty then (ws, lastU, heap)
    else
      let r := drainStrInner lastU heap [] 0
      let heap' := r.1
      let lastU' := r.2.1
      let acc := r.2.2
      if acc.isEmpty then drainStrOuter fuel lastU heap' ws
      else drainStrOuter fuel lastU' heap' (ws ++ [acc])

/-- `StreamMerger::DrainAll` (string-buffered variant). -/
def DrainAllStr (lastU : Nat) (heap : List StrEntry) :
    List (List StrEntry) × Nat × List StrEntry :=
  drainStrOuter heap.length lastU heap []

/-! ## System model: rings feeding the iovec merger

`lockfree::Ring<RawOrderUpdate, 16384>` keeps `free` (recycled empty slots)
and `ready` (published payloads, FIFO).  Empty slots are interchangeable after
`clear()`, so `free` is modelled by its population count. -/

/-- `kRawOrderQueueCapacity` from `src/include/core/message.hpp`. -/
def kRingCapacity : Nat := 16384

/-- One payload ring: `free_` as a count, `ready_` as the FIFO of published
payload byte strings. -/
structure RingState where
  free : Nat
  ready : List (List Char)
  deriving Repr, DecidableEq

/-- A freshly constructed ring: `free_` pre-populated with the full capacity. -/
def RingState.init : RingState := ⟨kRingCapacity, []⟩

/-- The producer contract of `lockfree::Ring` (its documented usage pattern:
`acquire(out) → fill → publish(move(out))`, with the session yielding and
retrying `acquire` until a slot is free).  Exact whenever `free > 0`, which
holds throughout every run considered in this file. -/
def RingState.produce (r : RingState) (p : List Char) : RingState :=
  ⟨r.free - 1, r.ready ++ [p]⟩

/-- `release(std::move(buf))`: one slot returns to `free_`. -/
def RingState.release (r : RingState) : RingState :=
  ⟨r.free + 1, r.ready⟩

/-- Whole-system state for the iovec merger wired to its rings, with ghost
counters for consumed and released slots (pure instrumentation, no effect on
behaviour). -/
structure IovSys where
  rings : List RingState
  lastU : Nat
  heap : List BufEntry
  writes : List (List BufEntry)
  consumedCount : Nat
  releasedCount : Nat
  deriving Repr, DecidableEq

/-- Initial system with `n` sessions, mirroring `Run`'s construction. -/
def IovSys.init (n : Nat) : IovSys :=
  ⟨List.replicate n RingState.init, 0, [], [], 0, 0⟩

/-- Body of the `while (queues_[i]->consume(m))` loop of `IngestQueues`:
parse `u`, drop unparseable payloads and late duplicates (the consumed slot is
NOT released on either drop path), push the rest onto the heap with
`first_seen = now`. -/
def ingestPayload (now i lastU : Nat) (heap : List BufEntry) (p : List Char) :
    List BufEntry :=
  match ExtractUpdateId p with
  | none => heap
  | some u => if u ≤ lastU then heap else insertByU ⟨u, now, i, p⟩ heap

/-- Consume an entire ring's `ready_` queue in FIFO order. -/
def ingestRing (now i lastU : Nat) (heap : List BufEntry) (ps : List (List Char)) :
    List BufEntry :=
  ps.foldl (ingestPayload now i lastU) heap

/-- One iteration of `IngestQueues` (ring index `i`): consume everything in
`ready_`, drop or heap each payload. -/
def ingestStep (now : Nat) (acc : IovSys) (i : Nat) : IovSys :=
  match acc.rings.get? i with
  | none => acc
  | some r =>
    { acc with
      rings := acc.rings.set i { r with ready := [] }
      heap := ingestRing now i acc.lastU acc.heap r.ready
      consumedCount := acc.consumedCount + r.ready.length }

/-- `StreamMerger::IngestQueues` over all rings, in index order. -/
def IngestQueues (now : Nat) (s : IovSys) : IovSys :=
  (List.range s.rings.length).foldl (ingestStep now) s

/-- Release every written entry back to its source ring (performed by the
code right after each successful `WritevAll`). -/
def releaseAll (rings : List RingState) (entries : List BufEntry) :
    List RingState :=
  entries.foldl
    (fun rs e =>
      match rs.get? e.src with
      | none => rs
      | some r => rs.set e.src r.release)
    rings

/-- Apply one `FlushReady` pass to the system. -/
def flushSys (now : Nat) (s : IovSys) : IovSys :=
  let r := FlushReady now s.lastU s.heap
  let ws := r.1
  { s with
    lastU := r.2.1
    heap := r.2.2
    writes := s.writes ++ ws
    rings := releaseAll s.rings ws.flatten
    releasedCount := s.releasedCount + ws.flatten.length }

/-- Apply the final `DrainAll` to the system. -/
def drainSys (s : IovSys) : IovSys :=
  let r := DrainAll s.lastU s.heap
  let ws := r.1
  { s with
    lastU := r.2.1
    heap := r.2.2
    writes := s.writes ++ ws
    rings := releaseAll s.rings ws.flatten
    releasedCount := s.releasedCount + ws.flatten.length }

/-- One observable action on the system: a session publishing a payload, one
`IngestQueues`-then-`FlushReady` iteration of the merger's `Run` loop at a
given steady time, or the final shutdown drain. -/
inductive Act where
  | produce (i : Nat) (p : List Char)
  | pass (now : Nat)
  | drain
  deriving Repr, DecidableEq

/-- Execute one action on the iovec system. -/
def stepIov (s : IovSys) : Act → IovSys
  | .produce i p =>
    match s.rings.get? i with
    | none => s
    | some r => { s with rings := s.rings.set i (r.produce p) }
  | .pass now => flushSys now (IngestQueues now s)
  | .drain => drainSys s

/-- Run a script of actions on the iovec system. -/
def runIov (acts : List Act) (s : IovSys) : IovSys := acts.foldl stepIov s

/-- The flat sequence of `u` values written to the merged output file. -/
def outputUs (s : IovSys) : List Nat := s.writes.flatten.map (·.u)

/-! ## System model: plain SPSC queues feeding the string-buffered merger -/

/-- Whole-system state for the string-buffered merger: per-session
`boost::lockfree::spsc_queue<Message, 16384>` contents (payload strings, FIFO),
plus the merger state and write log. -/
structure StrSys where
  queues : List (List (List Char))
  lastU : Nat
  heap : List StrEntry
  writes : List (List StrEntry)
  deriving Repr, DecidableEq

/-- Initial string-variant system with `n` sessions. -/
def StrSys.init (n : Nat) : StrSys := ⟨List.replicate n [], 0, [], []⟩

/-- Ingest one payload (string-buffered `IngestQueues` loop body; same
parser, same dedup-on-push rule). -/
def ingestPayloadStr (now lastU : Nat) (heap : List StrEntry) (p : List Char) :
    List StrEntry :=
  match ExtractUpdateId p with
  | none => heap
  | some u => if u ≤ lastU then heap else insertStrByU ⟨u, now, p⟩ heap

/-- Consume an entire queue in FIFO order (string-buffered variant). -/
def ingestQueueStr (now lastU : Nat) (heap : List StrEntry) (ps : List (List Char)) :
    List StrEntry :=
  ps.foldl (ingestPayloadStr now lastU) heap

/-- One iteration of the string-buffered `IngestQueues`. -/
def ingestStepStr (now : Nat) (acc : StrSys) (i : Nat) : StrSys :=
  match acc.queues.get? i with
  | none => acc
  | some q =>
    { acc with
      queues := acc.queues.set i []
      heap := ingestQueueStr now acc.lastU acc.heap q }

/-- `StreamMerger::IngestQueues` (string-buffered variant). -/
def IngestQueuesStr (now : Nat) (s : StrSys) : StrSys :=
  (List.range s.queues.length).foldl (ingestStepStr now) s

/-- Apply one string-buffered `FlushReady` pass to the system. -/
def flushSysStr (now : Nat) (s : StrSys) : StrSys :=
  let r := FlushReadyStr now s.lastU s.heap
  { s with lastU := r.2.1, heap := r.2.2, writes := s.writes ++ r.1 }

/-- Apply the string-buffered `DrainAll` to the system. -/
def drainSysStr (s : StrSys) : StrSys :=
  let r := DrainAllStr s.lastU s.heap
  { s with lastU := r.2.1, heap := r.2.2, writes := s.writes ++ r.1 }

/-- Execute one action on the string-variant system.  `spsc_queue::push`
drops on a full queue (the sessions ignore its return value). -/
def stepStr (s : StrSys) : Act → StrSys
  | .produce i p =>
    match s.queues.get? i with
    | none => s
    | some q =>
      if q.length < kRingCapacity then { s with queues := s.queues.set i (q ++ [p]) }
      else s
  | .pass now => flushSysStr now (IngestQueuesStr now s)
  | .drain => drainSysStr s

/-- Run a script of actions on the string-variant system. -/
def runStr (acts : List Act) (s : StrSys) : StrSys := acts.foldl stepStr s

/-- The flat sequence of `u` values written by the string-buffered merger. -/
def outputUsStr (s : StrSys) : List Nat := s.writes.flatten.map (·.u)

/-! ## `retry::Backoff` (`src/include/net/backoff.hpp`, identical in
`src/include/sessions/backoff.hpp`) -/

/-- The backoff state: `current_ms` and `max_ms`. -/
structure Backoff where
  current_ms : Nat
  max_ms : Nat
  deriving Repr, DecidableEq

/-- Default-constructed `Backoff` (`current_ms = 200`, `max_ms = 5000`). -/
def Backoff.mkDefault : Backoff := ⟨200, 5000⟩

/-- `Backoff::Reset`. -/
def Backoff.Reset (b : Backoff) : Backoff := { b with current_ms := 200 }

/-- `Backoff::Next`: return the current delay, then double it capped at
`max_ms`. -/
def Backoff.Next (b : Backoff) : Nat × Backoff :=
  (b.current_ms, { b with current_ms := min b.max_ms (b.current_ms * 2) })

/-- Delay returned by the `n`-th `Next` call (0-based) after state `b`. -/
def Backoff.delay (b : Backoff) : Nat → Nat
  | 0 => b.Next.1
  | n + 1 => b.Next.2.delay n

/-! ## The runner (`src/include/core/runner.hpp`, `Run`) -/

/-- Externally observable startup/shutdown events of `Run`, in program
order. -/
inductive RunEvent where
  | addSession (i : Nat)
  | loggerStart
  | sessionStart (i : Nat)
  | mergerOpenFail
  | mergerStart
  | reactorStop
  | mergerJoin
  | loggerJoin
  deriving Repr, DecidableEq

/-- Trace semantics of `Run` (`src/include/core/runner.hpp`): the exit code
and the ordered event trace.  `openOk` abstracts whether
`::open(out_file, O_CREAT|O_WRONLY|O_TRUNC)` in the `StreamMerger`
constructor succeeds.  The sessions and the logger are started before the
merger is constructed and `OpenOk()` is checked. -/
def Run (n : Nat) (openOk : Bool) : Int × List RunEvent :=
  let startup : List RunEvent :=
    (List.range n).map RunEvent.addSession ++
    [RunEvent.loggerStart] ++
    (List.range n).map RunEvent.sessionStart
  if openOk then
    (0, startup ++ [RunEvent.mergerStart, RunEvent.reactorStop,
                    RunEvent.mergerJoin, RunEvent.loggerJoin])
  else
    (1, startup ++ [RunEvent.mergerOpenFail])

/-! ## `FileLogger` (`src/include/logging/logger.hpp`) -/

/-- `logging::LatencyEvent`. -/
structure LatencyEvent where
  arrival_ms : Int
  event_ms : Int
  deriving Repr, DecidableEq

/-- `kLatencyRingCapacity = 1 << 16`. -/
def kLatencyRingCapacity : Nat := 2 ^ 16

/-- `boost::lockfree::spsc_queue<LatencyEvent, 65536>::push`: drop on full
(the producers ignore the return value). -/
def pushLatency (q : List LatencyEvent) (ev : LatencyEvent) : List LatencyEvent :=
  if q.length < kLatencyRingCapacity then q ++ [ev] else q

/-- The digit-collection loop of `FileLogger::ItoaFast` (`while (x) { tmp[i++]
= '0' + x % 10; x /= 10; }`), least significant digit first; fuelled, exact
whenever `fuel ≥ x`. -/
def itoaLoop : Nat → Nat → List Char
  | _, 0 => []
  | 0, _ + 1 => []
  | fuel + 1, x + 1 =>
    Char.ofNat (48 + (x + 1) % 10) :: itoaLoop fuel ((x + 1) / 10)

/-- `FileLogger::ItoaFast` on a (non-wrapped) `int64_t` value: `"0"` for zero,
otherwise an optional `-` followed by the collected digits reversed. -/
def ItoaFast (v : Int) : List Char :=
  if v = 0 then ['0']
  else (if v < 0 then ['-'] else []) ++ (itoaLoop v.natAbs v.natAbs).reverse

/-- The line built for one `LatencyEvent` by `FileLogger::DrainQueue`:
`ItoaFast(std::abs(arrival_ms - event_ms))` followed by `'\n'`.  Exact for
events with `|arrival_ms - event_ms| < 2^63` (no `int64_t` wrap-around, no
UB in `std::abs`). -/
def latencyLine (ev : LatencyEvent) : List Char :=
  ItoaFast ((ev.arrival_ms - ev.event_ms).natAbs : Int) ++ ['\n']

/-- The `while (q.pop(ev))` loop of `FileLogger::DrainQueue`: batch lines
into an iovec, flushing each time the batch reaches 128 lines, plus a final
flush of a non-empty remainder.  Returns the vectored writes, each a list of
lines. -/
def drainLoop : List LatencyEvent → List (List Char) → List (List (List Char)) →
    List (List (List Char))
  | [], cur, ws => if cur.isEmpty then ws else ws ++ [cur]
  | ev :: rest, cur, ws =>
    let cur' := cur ++ [latencyLine ev]
    if cur'.length = 128 then drainLoop rest [] (ws ++ [cur'])
    else drainLoop rest cur' ws

/-- `FileLogger` state: per-session file descriptors and latency queues
(always added in lockstep by `AddSession`). -/
structure LoggerState where
  fds : List Int
  queues : List (List LatencyEvent)
  deriving Repr, DecidableEq

/-- `FileLogger::AddSession`: push the (possibly `-1`) fd and the external
queue, returning `fds_.size()` from before the push as the session id —
whether or not the `::open` succeeded. -/
def AddSession (st : LoggerState) (fd : Int) (q : List LatencyEvent) :
    Nat × LoggerState :=
  (st.fds.length, ⟨st.fds ++ [fd], st.queues ++ [q]⟩)

/-- `FileLogger::DrainQueue(i)`: out-of-range indices and sessions whose fd
is `-1` return immediately (nothing popped, nothing written); otherwise the
queue is drained entirely and written in batches.  Returns the new state and
the vectored writes performed on session `i`'s file. -/
def DrainQueue (st : LoggerState) (i : Nat) :
    LoggerState × List (List (List Char)) :=
  match st.fds.get? i, st.queues.get? i with
  | some fd, some q =>
    if fd = -1 then (st, [])
    else ({ st with queues := st.queues.set i [] }, drainLoop q [] [])
  | _, _ => (st, [])

/-! ## Concrete payloads and scripts used by the evaluation theorems -/

/-- Decimal digits of `n`, most significant first. -/
def natToChars (n : Nat) : List Char :=
  if n = 0 then ['0'] else (itoaLoop n n).reverse

/-- The NDJSON payload `{"u":n}`. -/
def jsonU (n : Nat) : List Char :=
  [lbrace, quot, 'u', quot, ':'] ++ natToChars n ++ [rbrace]

/-- 64 payloads `{"u":1} … {"u":64}` published by session 0. -/
def actsBatch : List Act :=
  (List.range 64).map (fun k => Act.produce 0 (jsonU (k + 1)))

/-- The prefix of the failing run: publish `u = 1..64`, one merger pass while
they are young, one pass at `t = 20` that emits all 64 in a single full
128-iovec batch. -/
def actsStale : List Act := actsBatch ++ [Act.pass 0, Act.pass 20]

/-- The full failing run: after the stale pass, session 1 delivers a late
duplicate `{"u":10}`, which the merger emits once it ages. -/
def actsDup : List Act :=
  actsStale ++ [Act.produce 1 (jsonU 10), Act.pass 30, Act.pass 50, Act.drain]

/-- Boolean test for a strictly increasing sequence. -/
def strictIncr : List Nat → Bool
  | [] => true
  | [_] => true
  | a :: b :: t => a < b && strictIncr (b :: t)

/-- A payload with no `"u"` field: `{"x":1}`. -/
def payloadNoU : List Char := [lbrace, quot, 'x', quot, ':', '1', rbrace]

/-- Run exhibiting the slot leak: one unparseable payload is published and the
merger ingests it. -/
def actsLeak : List Act := [Act.produce 0 payloadNoU, Act.pass 0]

/-- The heap invariant maintained by `std::priority_queue`: entries sorted by
ascending `u` (the top is a smallest-`u` entry). -/
def sortedByU (l : List BufEntry) : Prop :=
  List.Pairwise (fun a b => a.u ≤ b.u) l

/-- Canonical decimal representation of a natural number, written via
`Nat.digits` (most significant digit first). -/
def decimalRepr (n : Nat) : List Char :=
  if n = 0 then ['0']
  else ((Nat.digits 10 n).map (fun d => Char.ofNat (48 + d))).reverse

/-- Erasure from an iovec-merger heap entry to a string-merger one (drop the
source ring index). -/
def toStr (e : BufEntry) : StrEntry := ⟨e.u, e.first_seen, e.buf⟩

/-- Number of `produce` actions in a script. -/
def producesCount : List Act → Nat
  | [] => 0
  | Act.produce _ _ :: t => producesCount t + 1
  | _ :: t => producesCount t

/-- All payloads published by a script are at most 510 bytes. -/
def sizesOk : List Act → Bool
  | [] => true
  | Act.produce _ p :: t => decide (p.length ≤ 510) && sizesOk t
  | _ :: t => sizesOk t

/-- Payloads and heap entries currently inside the iovec system. -/
def sysSizesOk (a : IovSys) : Prop :=
  (∀ ps ∈ a.rings.map (fun r => r.ready), ∀ p ∈ ps, p.length ≤ 510) ∧
  (∀ e ∈ a.heap, e.buf.length ≤ 510)

/-- Number of payloads currently inside the iovec system (queued or heaped). -/
def sysCount (a : IovSys) : Nat :=
  (a.rings.map (fun r => r.ready.length)).sum + a.heap.length

/-- Observational correspondence between the two systems: same queue
contents, same `last_emitted_u_`, erasure-related heaps and write logs. -/
def Rel (a : IovSys) (b : StrSys) : Prop :=
  b.queues = a.rings.map (fun r => r.ready) ∧
  b.lastU = a.lastU ∧
  b.heap = a.heap.map toStr ∧
  b.writes = a.writes.map (List.map toStr)

/-- Bytes occupied in the coalescing buffer by a batch of entries. -/
def linesBytes (l : List BufEntry) : Nat :=
  (l.map (fun e => e.buf.length + 1)).sum

/-- A small script for the equivalence witness: one payload, two passes, a
drain. -/
def actsSmall : List Act :=
  [Act.produce 0 (jsonU 5), Act.pass 0, Act.pass 25, Act.drain]

/-! ## Theorems -/

set_option maxRecDepth 200000

/-- C1: the sequence of `u` values written to the merged output is NOT
strictly increasing over the whole run.  In the run `actsDup`, the `t = 20`
flush pass emits `u = 1..64` through a single full 128-iovec mid-loop batch;
that write path never assigns `last_emitted_u_`, so the stale value `0` lets
the late duplicate `{"u":10}` re-enter the heap and get written after `64`. -/
theorem C1_output_monotonicity_violated :
    outputUs (runIov actsDup (IovSys.init 2)) = List.range' 1 64 ++ [10] ∧
    strictIncr (outputUs (runIov actsDup (IovSys.init 2))) = false := by
  constructor <;> decide

/-- C2: a consumed slot is not always released.  After the merger ingests the
single unparseable payload `{"x":1}` (consumed from ring 0's `ready_` queue and
dropped by the `continue` in `IngestQueues` without any `release`), the ring
has lost a slot: `free_size + ready_size = 16383 ≠ 16384` at quiescence, with
one slot consumed and zero released. -/
theorem C2_slot_leak_on_unparseable_payload :
    (runIov actsLeak (IovSys.init 1)).consumedCount = 1 ∧
    (runIov actsLeak (IovSys.init 1)).releasedCount = 0 ∧
    ((runIov actsLeak (IovSys.init 1)).rings.getD 0 RingState.init).free +
      ((runIov actsLeak (IovSys.init 1)).rings.getD 0 RingState.init).ready.length
      = kRingCapacity - 1 := by
  refine ⟨by decide, by decide, by decide⟩

/-- C3: after a flush pass that wrote at least one entry, `last_emitted_u_`
does not always equal the largest `u` written.  In the run `actsStale`, the
`t = 20` pass writes `u = 1..64` via a full mid-loop 128-iovec batch and then
exits the loop with `iov_cnt = 0`, so the tail block that assigns
`last_emitted_u_` is skipped: the field remains `0` although `64` was
written. -/
theorem C3_last_emitted_u_stale_after_full_batch_pass :
    (runIov actsStale (IovSys.init 2)).lastU = 0 ∧
    outputUs (runIov actsStale (IovSys.init 2)) = List.range' 1 64 := by
  constructor <;> decide

/-- C4 (counterexample): the two merger implementations are not
observationally equivalent.  On the identical action script `actsDup` (same
payloads, same merger-arrival and flush times), the string-buffered merger
writes `u = 1..64` while the iovec-batched merger writes `u = 1..64, 10`. -/
theorem C4_mergers_not_observationally_equivalent :
    outputUsStr (runStr actsDup (StrSys.init 2)) ≠
      outputUs (runIov actsDup (IovSys.init 2)) := by
  decide

/-- C5 (counterexample): when the merged-output file cannot be opened, `Run`
does exit with code 1, but session starts have already been executed: with one
connection and a failing open, `sessionStart 0` occurs in the trace. -/
theorem C5_sessions_started_despite_open_failure :
    (Run 1 false).1 = 1 ∧ RunEvent.sessionStart 0 ∈ (Run 1 false).2 := by
  constructor <;> decide

/-- C5 (amended): for every invocation in which the merged-output file cannot
be opened, `Run` returns exit code 1, but only after `Start` was executed for
every session — the output-open check happens after the sessions (and the
logger) are started. -/
theorem C5_exit_one_after_sessions_started (n : Nat) :
    (Run n false).1 = 1 ∧
    ∀ i, i < n → RunEvent.sessionStart i ∈ (Run n false).2 := by
  refine ⟨rfl, fun i hi => ?_⟩
  simp only [Run, Bool.false_eq_true, if_false]
  refine List.mem_append_left _ (List.mem_append_right _ ?_)
  exact List.mem_map.mpr ⟨i, List.mem_range.mpr hi, rfl⟩

/-- Witness for `C5_exit_one_after_sessions_started` at `n = 2`, `i = 1`. -/
theorem C5_exit_one_after_sessions_started_witness :
    (1 : Nat) < 2 ∧ RunEvent.sessionStart 1 ∈ (Run 2 false).2 :=
  ⟨by decide, (C5_exit_one_after_sessions_started 2).2 1 (by decide)⟩

/-- Closed form of the backoff delay sequence when the cap is 5000. -/
lemma backoff_delay_closed_form (n : Nat) :
    ∀ c : Nat, c ≤ 5000 →
      Backoff.delay ⟨c, 5000⟩ n = min 5000 (c * 2 ^ n) := by
  induction n with
  | zero =>
    intro c hc
    simp [Backoff.delay, Backoff.Next, Nat.min_eq_right hc]
  | succ n ih =>
    intro c hc
    have h2 : min 5000 (c * 2) ≤ 5000 := Nat.min_le_left _ _
    have := ih (min 5000 (c * 2)) h2
    simp only [Backoff.delay, Backoff.Next] at *
    rw [this]
    rcases Nat.le_total (c * 2) 5000 with h | h
    · rw [Nat.min_eq_right h, Nat.mul_assoc, Nat.mul_comm 2 (2 ^ n),
        ← Nat.pow_succ]
    · rw [Nat.min_eq_left h]
      have hp : (0 : Nat) < 2 ^ n := pow_pos (by decide) n
      have h1 : (5000 : Nat) ≤ 5000 * 2 ^ n := by
        calc (5000 : Nat) = 5000 * 1 := by ring
        _ ≤ 5000 * 2 ^ n := Nat.mul_le_mul_left _ hp
      have h2n : (2 : Nat) ≤ 2 ^ (n + 1) := Nat.le_self_pow (Nat.succ_ne_zero n) 2
      have h3 : (5000 : Nat) ≤ c * 2 ^ (n + 1) := by
        calc (5000 : Nat) ≤ c * 2 := h
        _ ≤ c * 2 ^ (n + 1) := Nat.mul_le_mul_left _ h2n
      rw [Nat.min_eq_left h1, Nat.min_eq_left h3]

/-- C7: after a `Reset`, consecutive `Backoff::Next` calls of a session's
backoff (cap `max_ms = 5000`) return 200, 400, 800, … doubling up to the
5000 ms cap — the `n`-th delay (0-based here) is `min 5000 (200 * 2^n)`; in
particular `Reset` restores the next delay to 200 ms. -/
theorem C7_backoff_schedule (b : Backoff) (hmax : b.max_ms = 5000) :
    ∀ n, b.Reset.delay n = min 5000 (200 * 2 ^ n) := by
  intro n
  have : b.Reset = ⟨200, 5000⟩ := by
    simp [Backoff.Reset, hmax]
  rw [this]
  exact backoff_delay_closed_form n 200 (by decide)

/-- Witness for `C7_backoff_schedule`: the default-constructed backoff;
delays 0..5 are 200, 400, 800, 1600, 3200, 5000. -/
theorem C7_backoff_schedule_witness :
    Backoff.mkDefault.max_ms = 5000 ∧
    Backoff.mkDefault.Reset.delay 0 = min 5000 (200 * 2 ^ 0) ∧
    Backoff.mkDefault.Reset.delay 5 = min 5000 (200 * 2 ^ 5) :=
  ⟨rfl, C7_backoff_schedule Backoff.mkDefault rfl 0,
    C7_backoff_schedule Backoff.mkDefault rfl 5⟩

/-- Every entry in the pending batch or in a mid-loop write of `flushLoop`
was aged past the hold-back window (given the same for the initial batch and
writes). -/
lemma flushLoop_aged (now : Nat) :
    ∀ (heap : List BufEntry) (lastU : Nat) (batch : List BufEntry)
      (iov : Nat) (ws : List (List BufEntry)),
      (∀ e ∈ batch, e.first_seen + kHoldback ≤ now) →
      (∀ b ∈ ws, ∀ e ∈ b, e.first_seen + kHoldback ≤ now) →
      (∀ e ∈ (flushLoop now heap lastU batch iov ws).2.2.1,
          e.first_seen + kHoldback ≤ now) ∧
      (∀ b ∈ (flushLoop now heap lastU batch iov ws).2.2.2.2, ∀ e ∈ b,
          e.first_seen + kHoldback ≤ now) := by
  intro heap
  induction heap with
  | nil => intro lastU batch iov ws hb hw; exact ⟨hb, hw⟩
  | cons top rest ih =>
    intro lastU batch iov ws hb hw
    simp only [flushLoop]
    by_cases h1 : top.u ≤ lastU
    · simpa [h1] using ih lastU batch iov ws hb hw
    · by_cases h2 : now - top.first_seen < kHoldback
      · simpa [h1, h2] using And.intro hb hw
      · have htop : top.first_seen + kHoldback ≤ now := by
          unfold kHoldback at *; omega
        have hb' : ∀ e ∈ batch ++ [top], e.first_seen + kHoldback ≤ now := by
          intro e he
          rcases List.mem_append.mp he with h | h
          · exact hb e h
          · rcases List.mem_singleton.mp h with rfl; exact htop
        by_cases h3 : 128 ≤ iov + 2
        · have hw' : ∀ b ∈ ws ++ [batch ++ [top]], ∀ e ∈ b,
              e.first_seen + kHoldback ≤ now := by
            intro b hbmem
            rcases List.mem_append.mp hbmem with h | h
            · exact hw b h
            · rcases List.mem_singleton.mp h with rfl; exact hb'
          simpa [h1, h2, h3] using
            ih top.u [] 0 (ws ++ [batch ++ [top]]) (by simp) hw'
        · simpa [h1, h2, h3] using ih top.u (batch ++ [top]) (iov + 2) ws hb' hw

/-- When `flushLoop` leaves a non-empty heap, its head is the entry that
failed the hold-back test. -/
lemma flushLoop_stop_young (now : Nat) :
    ∀ (heap : List BufEntry) (lastU : Nat) (batch : List BufEntry)
      (iov : Nat) (ws : List (List BufEntry)) (hd : BufEntry) (t : List BufEntry),
      (flushLoop now heap lastU batch iov ws).1 = hd :: t →
      now - hd.first_seen < kHoldback := by
  intro heap
  induction heap with
  | nil => intro lastU batch iov ws hd t h; simp [flushLoop] at h
  | cons top rest ih =>
    intro lastU batch iov ws hd t h
    simp only [flushLoop] at h
    by_cases h1 : top.u ≤ lastU
    · exact ih lastU batch iov ws hd t (by simpa [h1] using h)
    · by_cases h2 : now - top.first_seen < kHoldback
      · simp only [h1, if_false, h2, if_true] at h
        rcases h with ⟨rfl, -⟩
        exact h2
      · by_cases h3 : 128 ≤ iov + 2
        · exact ih top.u [] 0 (ws ++ [batch ++ [top]]) hd t
            (by simpa [h1, h2, h3] using h)
        · exact ih top.u (batch ++ [top]) (iov + 2) ws hd t
            (by simpa [h1, h2, h3] using h)

/-- The heap left by `flushLoop` is a suffix of the input heap. -/
lemma flushLoop_heap_suffix (now : Nat) :
    ∀ (heap : List BufEntry) (lastU : Nat) (batch : List BufEntry)
      (iov : Nat) (ws : List (List BufEntry)),
      (flushLoop now heap lastU batch iov ws).1 <:+ heap := by
  intro heap
  induction heap with
  | nil => intro lastU batch iov ws; simp [flushLoop]
  | cons top rest ih =>
    intro lastU batch iov ws
    simp only [flushLoop]
    by_cases h1 : top.u ≤ lastU
    · simpa [h1] using (ih lastU batch iov ws).trans (List.suffix_cons top rest)
    · by_cases h2 : now - top.first_seen < kHoldback
      · simp [h1, h2]
      · by_cases h3 : 128 ≤ iov + 2
        · simpa [h1, h2, h3] using
            (ih top.u [] 0 (ws ++ [batch ++ [top]])).trans (List.suffix_cons top rest)
        · simpa [h1, h2, h3] using
            (ih top.u (batch ++ [top]) (iov + 2) ws).trans (List.suffix_cons top rest)

/-- C6: outside the shutdown drain the merger respects the 20 ms hold-back:
in a `FlushReady` pass at steady time `now`, every entry of every vectored
write satisfies `first_seen + 20 ≤ now`, and the pass stops at the first
(smallest-`u`, by the heap order) remaining entry, which is younger than
20 ms. -/
theorem C6_holdback_respected (now lastU : Nat) (heap : List BufEntry)
    (hs : sortedByU heap) :
    (∀ e ∈ (FlushReady now lastU heap).1.flatten, e.first_seen + kHoldback ≤ now) ∧
    (∀ hd t, (FlushReady now lastU heap).2.2 = hd :: t →
      now < hd.first_seen + kHoldback ∧ ∀ e ∈ hd :: t, hd.u ≤ e.u) := by
  have haged := flushLoop_aged now heap lastU [] 0 [] (by simp) (by simp)
  have hyoung := flushLoop_stop_young now heap lastU [] 0 []
  have hsuf := flushLoop_heap_suffix now heap lastU [] 0 []
  constructor
  · intro e he
    simp only [FlushReady] at he
    by_cases hiov : 0 < (flushLoop now heap lastU [] 0 []).2.2.2.1
    · simp only [hiov, if_true, List.flatten_append, List.flatten_cons,
        List.flatten_nil, List.append_nil, List.mem_append] at he
      rcases he with h | h
      · rcases List.mem_flatten.mp h with ⟨b, hbmem, hemem⟩
        exact haged.2 b hbmem e hemem
      · exact haged.1 e h
    · simp only [hiov, if_false] at he
      rcases List.mem_flatten.mp he with ⟨b, hbmem, hemem⟩
      exact haged.2 b hbmem e hemem
  · intro hd t hres
    have hres' : (flushLoop now heap lastU [] 0 []).1 = hd :: t := by
      simp only [FlushReady] at hres
      by_cases hiov : 0 < (flushLoop now heap lastU [] 0 []).2.2.2.1 <;>
        simpa [hiov] using hres
    have h1 := hyoung hd t hres'
    refine ⟨by unfold kHoldback at *; omega, ?_⟩
    have hsub : List.Pairwise (fun a b => a.u ≤ b.u) (hd :: t) := by
      rw [hres'] at hsuf
      exact hs.sublist hsuf.sublist
    intro e he
    rcases List.mem_cons.mp he with rfl | h
    · exact le_refl _
    · exact (List.pairwise_cons.mp hsub).1 e h

/-- Witness for `C6_holdback_respected`: a sorted two-entry heap at
`now = 25`; the aged entry `u = 1` is written, the young entry `u = 2`
remains as the head. -/
theorem C6_holdback_respected_witness :
    sortedByU [⟨1, 0, 0, jsonU 1⟩, ⟨2, 10, 0, jsonU 2⟩] ∧
    (∀ e ∈ (FlushReady 25 0 [⟨1, 0, 0, jsonU 1⟩, ⟨2, 10, 0, jsonU 2⟩]).1.flatten,
        e.first_seen + kHoldback ≤ 25) ∧
    (∀ hd t, (FlushReady 25 0 [⟨1, 0, 0, jsonU 1⟩, ⟨2, 10, 0, jsonU 2⟩]).2.2 = hd :: t →
        25 < hd.first_seen + kHoldback ∧ ∀ e ∈ hd :: t, hd.u ≤ e.u) := by
  have hsorted : sortedByU [⟨1, 0, 0, jsonU 1⟩, ⟨2, 10, 0, jsonU 2⟩] := by
    unfold sortedByU; decide
  exact ⟨hsorted,
    C6_holdback_respected 25 0 [⟨1, 0, 0, jsonU 1⟩, ⟨2, 10, 0, jsonU 2⟩] hsorted⟩

/-- C8 (counterexample): the session-side event-time extraction does not
return the value of the payload's `"E"` field whenever it is present: the two
payloads `{"E" : 7}` and `{"E":7}` denote the same JSON object with field `E`
equal to 7, yet the scanner (which looks for the exact byte sequence
`"E":`) returns 0 for the first and 7 for the second. -/
theorem C8_event_time_extraction_whitespace_sensitive :
    ExtractEventTimestampMs
        ([lbrace, quot, 'E', quot, ' ', ':', ' ', '7', rbrace]) = 0 ∧
    ExtractEventTimestampMs ([lbrace, quot, 'E', quot, ':', '7', rbrace]) = 7 := by
  constructor <;> decide

/-- `findSub` misses: a pattern that is not an infix is not found. -/
lemma findSub_eq_none (pat : List Char) (hne : pat ≠ []) :
    ∀ s : List Char, ¬ pat <:+: s → findSub pat s = none := by
  intro s
  induction s with
  | nil => intro _; simp [findSub, hne]
  | cons c rest ih =>
    intro hnin
    simp only [findSub]
    by_cases hp : pat.isPrefixOf (c :: rest)
    · exact absurd (List.isPrefixOf_iff_prefix.mp hp).isInfix hnin
    · simp only [hp, if_false]
      exact ih (fun h => hnin (List.infix_cons h))

/-- `findSub` hits: when the string is `p ++ pat ++ t` and no occurrence of
`pat` starts inside `p`, the first occurrence found is the designated one. -/
lemma findSub_append (pat : List Char) (hne : pat ≠ []) :
    ∀ p t : List Char, ¬ pat <:+: (p ++ pat.dropLast) →
      findSub pat (p ++ pat ++ t) = some (pat ++ t) := by
  intro p
  induction p with
  | nil =>
    intro t _
    match pat, hne with
    | c :: cs, _ =>
      have hpfx : (c :: cs).isPrefixOf ((c :: cs) ++ t) = true :=
        List.isPrefixOf_iff_prefix.mpr ⟨t, rfl⟩
      simp only [List.nil_append, List.cons_append] at *
      simp [findSub, hpfx]
  | cons a p' ih =>
    intro t hnin
    have hlen : 1 ≤ pat.length := by
      cases pat with
      | nil => exact absurd rfl hne
      | cons _ _ => simp
    simp only [List.cons_append, findSub, List.append_eq]
    by_cases hp : pat.isPrefixOf (a :: (p' ++ pat ++ t))
    · exfalso
      apply hnin
      have hpre := List.isPrefixOf_iff_prefix.mp hp
      have hY : (a :: (p' ++ pat.dropLast)) =
          (a :: (p' ++ pat ++ t)).take (p'.length + pat.length) := by
        rw [show p'.length + pat.length = (p'.length + pat.length - 1) + 1 by omega,
          List.take_succ_cons]
        congr 1
        rw [List.append_assoc, List.take_append_eq_append_take,
          List.take_of_length_le (l := p') (by omega),
          List.take_append_of_le_length
            (by omega : p'.length + pat.length - 1 - p'.length ≤ pat.length),
          List.dropLast_eq_take]
        congr 1
        congr 1
        omega
      have hpre' : pat <+: (a :: (p' ++ pat.dropLast)) := by
        rw [hY]
        exact List.prefix_take_iff.mpr ⟨hpre, by omega⟩
      exact hpre'.isInfix
    · rw [if_neg hp]
      exact ih t (fun h => hnin (List.infix_cons h))

/-- `takeWhile isDigit` on a digit run followed by a non-digit keeps exactly
the run. -/
lemma takeWhile_digit_run :
    ∀ ds r : List Char, (∀ c ∈ ds, c.isDigit = true) →
      (∀ c ∈ r.take 1, c.isDigit = false) →
      (ds ++ r).takeWhile Char.isDigit = ds := by
  intro ds r hds hr
  induction ds with
  | nil =>
    cases r with
    | nil => simp
    | cons c r' =>
      have := hr c (by simp)
      simp [List.takeWhile, this]
  | cons d ds' ih =>
    have hd := hds d (by simp)
    simp only [List.cons_append, List.takeWhile_cons, hd, if_true]
    rw [ih (fun c hc => hds c (by simp [hc]))]

/-- The `Int` digit accumulator agrees with the `Nat` one on digit runs. -/
lemma digitsToInt_eq_digitsToNat :
    ∀ ds : List Char, (∀ c ∈ ds, c.isDigit = true) →
      digitsToInt ds = (digitsToNat ds : Int) := by
  have key : ∀ (ds : List Char) (a : Nat), (∀ c ∈ ds, c.isDigit = true) →
      ds.foldl (fun x c => x * 10 + ((c.toNat : Int) - 48)) (a : Int) =
        (ds.foldl (fun x c => x * 10 + (c.toNat - 48)) a : Nat) := by
    intro ds
    induction ds with
    | nil => intro a _; rfl
    | cons c cs ih =>
      intro a h
      have hc := h c (by simp)
      have h48 : 48 ≤ c.toNat := by
        simp [Char.isDigit, Char.le_def] at hc
        exact hc.1
      have : (a : Int) * 10 + ((c.toNat : Int) - 48) =
          ((a * 10 + (c.toNat - 48) : Nat) : Int) := by
        push_cast [h48]
        ring
      simp only [List.foldl_cons, this]
      exact ih _ (fun x hx => h x (by simp [hx]))
  intro ds h
  exact key ds 0 h

/-- C8 (amended): `lat::ExtractEventTimestampMs` returns the integer value of
the decimal digits immediately following the first occurrence of the exact
four-byte token `"E":`, and returns 0 when that token is absent (a field
written with whitespace around the colon, or a value of 0, therefore also
yields 0).  The value bound keeps the C++ `int64_t` accumulation free of
overflow. -/
theorem C8_event_time_extraction_token_characterization :
    (∀ s : List Char, ¬ eTok <:+: s → ExtractEventTimestampMs s = 0) ∧
    (∀ p ds r : List Char, ¬ eTok <:+: (p ++ eTok.dropLast) →
      ds ≠ [] → (∀ c ∈ ds, c.isDigit = true) →
      (∀ c ∈ r.take 1, c.isDigit = false) →
      digitsToNat ds < 2 ^ 63 →
      ExtractEventTimestampMs (p ++ eTok ++ ds ++ r) = (digitsToNat ds : Int)) := by
  constructor
  · intro s hnin
    unfold ExtractEventTimestampMs
    rw [findSub_eq_none eTok (by decide) s hnin]
  · intro p ds r hnin hne hds hr hbound
    unfold ExtractEventTimestampMs
    have hassoc : p ++ eTok ++ ds ++ r = p ++ eTok ++ (ds ++ r) := by
      simp [List.append_assoc]
    rw [hassoc, findSub_append eTok (by decide) p (ds ++ r) hnin]
    show digitsToInt (((eTok ++ (ds ++ r)).drop 4).takeWhile Char.isDigit) = _
    have hdrop : (eTok ++ (ds ++ r)).drop 4 = ds ++ r := by
      have h4 : (4 : Nat) = eTok.length := by decide
      rw [h4, List.drop_left]
    rw [hdrop, takeWhile_digit_run ds r hds hr,
      digitsToInt_eq_digitsToNat ds hds]

/-- Witness for `C8_event_time_extraction_token_characterization`: the token
is absent from `{"x":1}` (result 0), and `{"E":7}` parses to 7. -/
theorem C8_event_time_extraction_token_characterization_witness :
    (¬ eTok <:+: payloadNoU ∧ ExtractEventTimestampMs payloadNoU = 0) ∧
    (¬ eTok <:+: ([lbrace] ++ eTok.dropLast) ∧
      ExtractEventTimestampMs ([lbrace] ++ eTok ++ ['7'] ++ [rbrace]) =
        (digitsToNat ['7'] : Int)) :=
  ⟨⟨by decide,
      C8_event_time_extraction_token_characterization.1 payloadNoU (by decide)⟩,
    ⟨by decide,
      C8_event_time_extraction_token_characterization.2 [lbrace] ['7'] [rbrace]
        (by decide) (by decide) (by decide) (by decide) (by decide)⟩⟩

/-- The `ItoaFast` digit loop produces the canonical base-10 digits (least
significant first) whenever the fuel is sufficient. -/
lemma itoaLoop_eq_digits :
    ∀ (fuel x : Nat), x ≤ fuel →
      itoaLoop fuel x = (Nat.digits 10 x).map (fun d => Char.ofNat (48 + d)) := by
  intro fuel
  induction fuel with
  | zero =>
    intro x hx
    interval_cases x
    simp [itoaLoop]
  | succ fuel ih =>
    intro x hx
    cases x with
    | zero => simp [itoaLoop]
    | succ y =>
      rw [itoaLoop, Nat.digits_def' (by norm_num : 1 < 10) (Nat.succ_pos y)]
      simp only [List.map_cons]
      congr 1
      refine ih ((y + 1) / 10) ?_
      have := Nat.div_lt_self (Nat.succ_pos y) (by norm_num : 1 < 10)
      omega

/-- `ItoaFast` on a non-negative value is the canonical decimal
representation. -/
lemma itoaFast_nonneg (n : Nat) : ItoaFast (n : Int) = decimalRepr n := by
  cases n with
  | zero => simp [ItoaFast, decimalRepr]
  | succ m =>
    have hne : ((m + 1 : Nat) : Int) ≠ 0 := by omega
    have hnneg : ¬ ((m + 1 : Nat) : Int) < 0 := by omega
    rw [ItoaFast, if_neg hne, if_neg hnneg]
    have : ((m + 1 : Nat) : Int).natAbs = m + 1 := rfl
    rw [this, itoaLoop_eq_digits (m + 1) (m + 1) le_rfl, decimalRepr,
      if_neg (Nat.succ_ne_zero m)]
    simp

/-- The `DrainQueue` batching loop writes exactly one line per event, in
order, with at most 128 lines per vectored write. -/
lemma drainLoop_props :
    ∀ (events : List LatencyEvent) (cur : List (List Char))
      (ws : List (List (List Char))),
      cur.length < 128 → (∀ b ∈ ws, b.length ≤ 128) →
      (drainLoop events cur ws).flatten =
        ws.flatten ++ cur ++ events.map latencyLine ∧
      (∀ b ∈ drainLoop events cur ws, b.length ≤ 128) := by
  intro events
  induction events with
  | nil =>
    intro cur ws hcur hws
    by_cases hc : cur.isEmpty
    · rw [List.isEmpty_iff] at hc
      subst hc
      constructor
      · simp [drainLoop]
      · intro b hb
        simp only [drainLoop, List.isEmpty_nil, if_true] at hb
        exact hws b hb
    · simp only [drainLoop, hc, if_false]
      constructor
      · simp
      · intro b hb
        rcases List.mem_append.mp hb with h | h
        · exact hws b h
        · rcases List.mem_singleton.mp h with rfl; omega
  | cons ev rest ih =>
    intro cur ws hcur hws
    simp only [drainLoop]
    by_cases hfull : (cur ++ [latencyLine ev]).length = 128
    · simp only [hfull, if_true]
      have hws' : ∀ b ∈ ws ++ [cur ++ [latencyLine ev]], b.length ≤ 128 := by
        intro b hb
        rcases List.mem_append.mp hb with h | h
        · exact hws b h
        · rcases List.mem_singleton.mp h with rfl; omega
      have := ih [] (ws ++ [cur ++ [latencyLine ev]]) (by simp) hws'
      refine ⟨?_, this.2⟩
      rw [this.1]
      simp
    · simp only [hfull, if_false]
      have hlt : (cur ++ [latencyLine ev]).length < 128 := by
        simp only [List.length_append, List.length_singleton] at *
        omega
      have := ih (cur ++ [latencyLine ev]) ws hlt hws
      refine ⟨?_, this.2⟩
      rw [this.1]
      simp

/-- C9: for every `LatencyEvent` popped by `DrainQueue`, exactly one line is
produced — the decimal representation of `|arrival_ms − event_ms|` followed
by a newline — in event order, packed into vectored writes of at most 128
lines each.  The bound keeps the C++ `int64_t` subtraction and `std::abs`
free of wrap-around and UB. -/
theorem C9_latency_lines (events : List LatencyEvent)
    (hb : ∀ ev ∈ events, (ev.arrival_ms - ev.event_ms).natAbs < 2 ^ 63) :
    (drainLoop events [] []).flatten = events.map latencyLine ∧
    (∀ b ∈ drainLoop events [] [], b.length ≤ 128) ∧
    (∀ ev ∈ events,
      latencyLine ev =
        decimalRepr (ev.arrival_ms - ev.event_ms).natAbs ++ ['\n']) := by
  have h := drainLoop_props events [] [] (by simp) (by simp)
  refine ⟨by simpa using h.1, h.2, ?_⟩
  intro ev _
  rw [latencyLine, itoaFast_nonneg]

/-- Witness for `C9_latency_lines`: two events with deltas 70 and −35 give
the lines `70\n` and `35\n` in one write. -/
theorem C9_latency_lines_witness :
    (∀ ev ∈ [(⟨100, 30⟩ : LatencyEvent), ⟨5, 40⟩],
      (ev.arrival_ms - ev.event_ms).natAbs < 2 ^ 63) ∧
    (drainLoop [(⟨100, 30⟩ : LatencyEvent), ⟨5, 40⟩] [] []).flatten =
      [(⟨100, 30⟩ : LatencyEvent), ⟨5, 40⟩].map latencyLine ∧
    (∀ ev ∈ [(⟨100, 30⟩ : LatencyEvent), ⟨5, 40⟩],
      latencyLine ev =
        decimalRepr (ev.arrival_ms - ev.event_ms).natAbs ++ ['\n']) := by
  have hb : ∀ ev ∈ [(⟨100, 30⟩ : LatencyEvent), ⟨5, 40⟩],
      (ev.arrival_ms - ev.event_ms).natAbs < 2 ^ 63 := by decide
  have h := C9_latency_lines [(⟨100, 30⟩ : LatencyEvent), ⟨5, 40⟩] hb
  exact ⟨hb, h.1, h.2.2⟩

/-- C10: `AddSession` hands out the next session id whether or not the file
opened (no error indication), `DrainQueue` returns immediately — popping
nothing and writing nothing — for a session whose fd is `-1`, and a push to
a full latency queue drops the event. -/
theorem C10_logger_silent_on_bad_fd :
    (∀ (st : LoggerState) (fd : Int) (q : List LatencyEvent),
      (AddSession st fd q).1 = st.fds.length ∧
      (AddSession st fd q).2 = ⟨st.fds ++ [fd], st.queues ++ [q]⟩) ∧
    (∀ (st : LoggerState) (i : Nat), st.fds.get? i = some (-1) →
      DrainQueue st i = (st, [])) ∧
    (∀ (q : List LatencyEvent) (ev : LatencyEvent),
      q.length = kLatencyRingCapacity → pushLatency q ev = q) := by
  refine ⟨fun st fd q => ⟨rfl, rfl⟩, ?_, ?_⟩
  · intro st i hfd
    unfold DrainQueue
    rw [hfd]
    cases hq : st.queues.get? i with
    | none => rfl
    | some q => simp
  · intro q ev hfull
    unfold pushLatency
    rw [if_neg (by omega)]

/-- Witness for `C10_logger_silent_on_bad_fd`: a logger with one session whose
open failed (`fd = -1`) and a non-empty queue, and a full latency queue. -/
theorem C10_logger_silent_on_bad_fd_witness :
    ((AddSession ⟨[], []⟩ (-1) [⟨1, 2⟩]).1 = 0) ∧
    ((⟨[-1], [[⟨1, 2⟩]]⟩ : LoggerState).fds.get? 0 = some (-1) ∧
      DrainQueue ⟨[-1], [[⟨1, 2⟩]]⟩ 0 = (⟨[-1], [[⟨1, 2⟩]]⟩, [])) ∧
    ((List.replicate kLatencyRingCapacity (⟨1, 2⟩ : LatencyEvent)).length =
        kLatencyRingCapacity ∧
      pushLatency (List.replicate kLatencyRingCapacity ⟨1, 2⟩) ⟨1, 2⟩ =
        List.replicate kLatencyRingCapacity ⟨1, 2⟩) := by
  have hlen : (List.replicate kLatencyRingCapacity (⟨1, 2⟩ : LatencyEvent)).length =
      kLatencyRingCapacity := List.length_replicate _ _
  exact ⟨(C10_logger_silent_on_bad_fd.1 ⟨[], []⟩ (-1) [⟨1, 2⟩]).1,
    ⟨rfl, C10_logger_silent_on_bad_fd.2.1 ⟨[-1], [[⟨1, 2⟩]]⟩ 0 rfl⟩,
    ⟨hlen, C10_logger_silent_on_bad_fd.2.2 _ _ hlen⟩⟩

lemma sum_map_set {α : Type} (f : α → Nat) :
    ∀ (l : List α) (i : Nat) (x r : α), l.get? i = some r →
      (((l.set i x).map f).sum + f r = (l.map f).sum + f x) := by
  intro l
  induction l with
  | nil => intro i x r h; simp at h
  | cons a t ih =>
    intro i x r h
    cases i with
    | zero =>
      simp only [List.get?_cons_zero, Option.some_inj] at h
      subst h
      simp [List.set]
      omega
    | succ j =>
      simp only [List.get?_cons_succ] at h
      have := ih j x r h
      simp only [List.set, List.map_cons, List.sum_cons]
      omega

lemma get?_le_sum_map {α : Type} (f : α → Nat) :
    ∀ (l : List α) (i : Nat) (r : α), l.get? i = some r →
      f r ≤ (l.map f).sum := by
  intro l
  induction l with
  | nil => intro i r h; simp at h
  | cons a t ih =>
    intro i r h
    cases i with
    | zero =>
      simp only [List.get?_cons_zero, Option.some_inj] at h
      subst h
      simp
    | succ j =>
      simp only [List.get?_cons_succ] at h
      have := ih j r h
      simp only [List.map_cons, List.sum_cons]
      omega

lemma set_get?_self {α : Type} :
    ∀ (l : List α) (i : Nat) (x : α), l.get? i = some x → l.set i x = l := by
  intro l
  induction l with
  | nil => intro i x h; simp at h
  | cons a t ih =>
    intro i x h
    cases i with
    | zero =>
      simp only [List.get?_cons_zero, Option.some_inj] at h
      subst h
      rfl
    | succ j =>
      simp only [List.get?_cons_succ] at h
      simp [List.set, ih j x h]

lemma insertByU_toStr (e : BufEntry) :
    ∀ heap : List BufEntry,
      (insertByU e heap).map toStr = insertStrByU (toStr e) (heap.map toStr) := by
  intro heap
  induction heap with
  | nil => rfl
  | cons x xs ih =>
    simp only [insertByU, List.map_cons, insertStrByU]
    by_cases h : e.u < x.u
    · simp [h, toStr]
    · simp [h, ih, toStr]

lemma mem_insertByU (e x : BufEntry) :
    ∀ heap : List BufEntry, x ∈ insertByU e heap → x = e ∨ x ∈ heap := by
  intro heap
  induction heap with
  | nil => intro h; simpa [insertByU] using h
  | cons a t ih =>
    intro h
    simp only [insertByU] at h
    by_cases hc : e.u < a.u
    · simp only [hc, if_true, List.mem_cons] at h
      rcases h with rfl | rfl | h <;> simp_all
    · simp only [hc, if_false, List.mem_cons] at h
      rcases h with rfl | h
      · simp
      · rcases ih h with rfl | h <;> simp_all

lemma insertByU_length (e : BufEntry) :
    ∀ heap : List BufEntry, (insertByU e heap).length = heap.length + 1 := by
  intro heap
  induction heap with
  | nil => rfl
  | cons a t ih =>
    simp only [insertByU]
    by_cases h : e.u < a.u <;> simp [h, ih]

lemma ingestPayload_toStr (now i lastU : Nat) (heap : List BufEntry) (p : List Char) :
    (ingestPayload now i lastU heap p).map toStr =
      ingestPayloadStr now lastU (heap.map toStr) p := by
  unfold ingestPayload ingestPayloadStr
  cases ExtractUpdateId p with
  | none => rfl
  | some u =>
    by_cases h : u ≤ lastU
    · simp [h]
    · simp only [h, if_false]
      exact insertByU_toStr ⟨u, now, i, p⟩ heap

lemma ingestRing_toStr (now i lastU : Nat) :
    ∀ (ps : List (List Char)) (heap : List BufEntry),
      (ingestRing now i lastU heap ps).map toStr =
        ingestQueueStr now lastU (heap.map toStr) ps := by
  intro ps
  induction ps with
  | nil => intro heap; rfl
  | cons p pt ih =>
    intro heap
    simp only [ingestRing, List.foldl_cons] at *
    rw [show ingestQueueStr now lastU (heap.map toStr) (p :: pt) =
        ingestQueueStr now lastU (ingestPayloadStr now lastU (heap.map toStr) p) pt
      from rfl]
    rw [← ingestPayload_toStr now i lastU heap p]
    exact ih (ingestPayload now i lastU heap p)

lemma ingestRing_length (now i lastU : Nat) :
    ∀ (ps : List (List Char)) (heap : List BufEntry),
      (ingestRing now i lastU heap ps).length ≤ heap.length + ps.length := by
  intro ps
  induction ps with
  | nil => intro heap; simp [ingestRing]
  | cons p pt ih =>
    intro heap
    have step : (ingestPayload now i lastU heap p).length ≤ heap.length + 1 := by
      unfold ingestPayload
      cases ExtractUpdateId p with
      | none => simp
      | some u =>
        by_cases h : u ≤ lastU
        · simp [h]
        · simp [h, insertByU_length]
    have := ih (ingestPayload now i lastU heap p)
    simp only [ingestRing, List.foldl_cons, List.length_cons] at *
    omega

lemma ingestRing_sizes (now i lastU : Nat) :
    ∀ (ps : List (List Char)) (heap : List BufEntry),
      (∀ p ∈ ps, p.length ≤ 510) → (∀ e ∈ heap, e.buf.length ≤ 510) →
      (∀ e ∈ ingestRing now i lastU heap ps, e.buf.length ≤ 510) := by
  intro ps
  induction ps with
  | nil => intro heap _ hh; simpa [ingestRing] using hh
  | cons p pt ih =>
    intro heap hps hh
    have hstep : ∀ e ∈ ingestPayload now i lastU heap p, e.buf.length ≤ 510 := by
      intro e he
      unfold ingestPayload at he
      cases hc : ExtractUpdateId p with
      | none => simp only [hc] at he; exact hh e he
      | some u =>
        simp only [hc] at he
        by_cases h : u ≤ lastU
        · rw [if_pos h] at he; exact hh e he
        · rw [if_neg h] at he
          rcases mem_insertByU _ e heap he with rfl | hmem
          · exact hps p (by simp)
          · exact hh e hmem
    exact ih (ingestPayload now i lastU heap p)
      (fun q hq => hps q (by simp [hq])) hstep

lemma flushSpec_heap (now : Nat) :
    ∀ (heap : List BufEntry) (lastU : Nat),
      (flushSpec now lastU heap).2.2.length ≤ heap.length ∧
      (∀ e ∈ (flushSpec now lastU heap).2.2, e ∈ heap) ∧
      (∀ e ∈ (flushSpec now lastU heap).1, e ∈ heap) := by
  intro heap
  induction heap with
  | nil => intro lastU; simp [flushSpec]
  | cons top rest ih =>
    intro lastU
    simp only [flushSpec]
    by_cases h1 : top.u ≤ lastU
    · simp only [h1, if_true]
      have := ih lastU
      refine ⟨by simp only [List.length_cons]; omega,
        fun e he => by simp [this.2.1 e he],
        fun e he => by simp [this.2.2 e he]⟩
    · simp only [h1, if_false]
      by_cases h2 : now - top.first_seen < kHoldback
      · simp [h2]
      · simp only [h2, if_false]
        have := ih top.u
        refine ⟨by simp only [List.length_cons]; omega,
          fun e he => by simp [this.2.1 e he], fun e he => ?_⟩
        rcases List.mem_cons.mp he with rfl | he'
        · simp
        · simp [this.2.2 e he']

lemma flushSpec_lastU_of_empty (now : Nat) :
    ∀ (heap : List BufEntry) (lastU : Nat),
      (flushSpec now lastU heap).1 = [] →
      (flushSpec now lastU heap).2.1 = lastU := by
  intro heap
  induction heap with
  | nil => intro lastU _; rfl
  | cons top rest ih =>
    intro lastU h
    simp only [flushSpec] at *
    by_cases h1 : top.u ≤ lastU
    · simp only [h1, if_true] at *
      exact ih lastU h
    · simp only [h1, if_false] at *
      by_cases h2 : now - top.first_seen < kHoldback
      · simp [h2]
      · simp [h2] at h

lemma flushLoop_small (now : Nat) :
    ∀ (heap : List BufEntry) (lastU : Nat) (batch : List BufEntry)
      (iov : Nat) (ws : List (List BufEntry)),
      iov = 2 * batch.length → batch.length + heap.length ≤ 63 →
      flushLoop now heap lastU batch iov ws =
        ((flushSpec now lastU heap).2.2, (flushSpec now lastU heap).2.1,
          batch ++ (flushSpec now lastU heap).1,
          iov + 2 * (flushSpec now lastU heap).1.length, ws) := by
  intro heap
  induction heap with
  | nil =>
    intro lastU batch iov ws hiov hcnt
    simp [flushLoop, flushSpec]
  | cons top rest ih =>
    intro lastU batch iov ws hiov hcnt
    simp only [flushLoop, flushSpec]
    by_cases h1 : top.u ≤ lastU
    · simp only [h1, if_true]
      exact ih lastU batch iov ws hiov (by simp at hcnt; omega)
    · simp only [h1, if_false]
      by_cases h2 : now - top.first_seen < kHoldback
      · simp [h2]
      · simp only [h2, if_false]
        have hlt : ¬ 128 ≤ iov + 2 := by
          simp only [List.length_cons] at hcnt
          omega
        rw [if_neg hlt]
        have := ih top.u (batch ++ [top]) (iov + 2) ws
          (by simp only [List.length_append, List.length_singleton]; omega)
          (by simp only [List.length_append, List.length_singleton,
                List.length_cons, List.length_nil] at hcnt ⊢; omega)
        rw [this]
        simp only [List.append_assoc, List.singleton_append, List.length_cons,
          Prod.mk.injEq, eq_self_iff_true, true_and, and_true]
        omega

lemma linesBytes_le (l : List BufEntry) (h : ∀ e ∈ l, e.buf.length ≤ 510) :
    linesBytes l ≤ l.length * 511 := by
  have := List.sum_le_card_nsmul (l.map (fun e => e.buf.length + 1)) 511
    (by
      intro x hx
      rcases List.mem_map.mp hx with ⟨e, he, rfl⟩
      have := h e he
      omega)
  simpa [linesBytes, smul_eq_mul] using this

lemma flushStrLoop_small (now : Nat) :
    ∀ (heap : List BufEntry) (lastU : Nat) (accB : List BufEntry) (size : Nat),
      size = linesBytes accB → accB.length + heap.length ≤ 63 →
      (∀ e ∈ accB, e.buf.length ≤ 510) → (∀ e ∈ heap, e.buf.length ≤ 510) →
      flushStrLoop now (heap.map toStr) lastU (accB.map toStr) size =
        ((flushSpec now lastU heap).2.2.map toStr, (flushSpec now lastU heap).2.1,
          (accB ++ (flushSpec now lastU heap).1).map toStr) := by
  intro heap
  induction heap with
  | nil =>
    intro lastU accB size hsz hcnt hacc hheap
    simp [flushStrLoop, flushSpec]
  | cons top rest ih =>
    intro lastU accB size hsz hcnt hacc hheap
    have hszlt : size < strCapLimit := by
      have h1 : linesBytes accB ≤ accB.length * 511 := linesBytes_le accB hacc
      have h2 : accB.length ≤ 63 := by
        simp only [List.length_cons] at hcnt; omega
      have : accB.length * 511 ≤ 63 * 511 := Nat.mul_le_mul_right _ h2
      unfold strCapLimit
      omega
    simp only [List.map_cons, flushStrLoop, flushSpec]
    rw [if_neg (by omega : ¬ ¬ size < strCapLimit)]
    by_cases h1 : top.u ≤ lastU
    · simp only [toStr, h1, if_true]
      exact ih lastU accB size hsz (by simp only [List.length_cons] at hcnt; omega)
        hacc (fun e he => hheap e (by simp [he]))
    · simp only [toStr, h1, if_false]
      by_cases h2 : now - top.first_seen < kHoldback
      · simp only [h2, if_true]
        simp [toStr]
      · simp only [h2, if_false]
        have hmap : (accB.map toStr) ++ [(⟨top.u, top.first_seen, top.buf⟩ : StrEntry)] =
            (accB ++ [top]).map toStr := by
          simp [toStr]
        rw [hmap]
        have := ih top.u (accB ++ [top]) (size + top.buf.length + 1)
          (by
            simp only [linesBytes, List.map_append, List.sum_append,
              List.map_cons, List.sum_cons, List.map_nil, List.sum_nil] at *
            omega)
          (by simp only [List.length_append, List.length_singleton,
                List.length_cons, List.length_nil] at hcnt ⊢; omega)
          (by
            intro x hx
            rcases List.mem_append.mp hx with h | h
            · exact hacc x h
            · rw [List.mem_singleton.mp h]
              exact hheap top (by simp))
          (fun e he => hheap e (by simp [he]))
        rw [this]
        simp [List.append_assoc]

lemma FlushReady_small (now lastU : Nat) (heap : List BufEntry)
    (hcnt : heap.length ≤ 63) :
    FlushReady now lastU heap =
      (if (flushSpec now lastU heap).1.isEmpty then []
        else [(flushSpec now lastU heap).1],
       if (flushSpec now lastU heap).1.isEmpty then lastU
        else (flushSpec now lastU heap).2.1,
       (flushSpec now lastU heap).2.2) := by
  unfold FlushReady
  rw [flushLoop_small now heap lastU [] 0 [] (by simp) (by simpa using hcnt)]
  cases hq : (flushSpec now lastU heap).1 with
  | nil => simp [hq]
  | cons a l => simp [hq]

lemma FlushReadyStr_small (now lastU : Nat) (heap : List BufEntry)
    (hcnt : heap.length ≤ 63) (hsz : ∀ e ∈ heap, e.buf.length ≤ 510) :
    FlushReadyStr now lastU (heap.map toStr) =
      (if (flushSpec now lastU heap).1.isEmpty then []
        else [(flushSpec now lastU heap).1.map toStr],
       if (flushSpec now lastU heap).1.isEmpty then lastU
        else (flushSpec now lastU heap).2.1,
       (flushSpec now lastU heap).2.2.map toStr) := by
  unfold FlushReadyStr
  have h0 : (List.map toStr ([] : List BufEntry)) = [] := rfl
  rw [← h0, flushStrLoop_small now heap lastU [] 0 (by simp [linesBytes])
    (by simpa using hcnt) (by simp) hsz]
  cases hq : (flushSpec now lastU heap).1 with
  | nil => simp [hq]
  | cons a l => simp [hq]

lemma drainOuter_empty :
    ∀ (fuel lastU : Nat) (ws : List (List BufEntry)),
      drainOuter fuel lastU [] ws = (ws, lastU, []) := by
  intro fuel lastU ws
  cases fuel <;> simp [drainOuter]

lemma drainStrOuter_empty :
    ∀ (fuel lastU : Nat) (ws : List (List StrEntry)),
      drainStrOuter fuel lastU [] ws = (ws, lastU, []) := by
  intro fuel lastU ws
  cases fuel <;> simp [drainStrOuter]

lemma drainInner_small :
    ∀ (heap : List BufEntry) (lastU : Nat) (batch : List BufEntry) (iov : Nat),
      iov = 2 * batch.length → batch.length + heap.length ≤ 63 →
      drainInner lastU heap batch iov =
        ([], (drainSpec lastU heap).2, batch ++ (drainSpec lastU heap).1,
          iov + 2 * (drainSpec lastU heap).1.length) := by
  intro heap
  induction heap with
  | nil => intro lastU batch iov hiov hcnt; simp [drainInner, drainSpec]
  | cons e rest ih =>
    intro lastU batch iov hiov hcnt
    simp only [drainInner, drainSpec]
    rw [if_neg (by
      simp only [List.length_cons] at hcnt
      omega : ¬ ¬ iov ≤ 126)]
    by_cases h : lastU < e.u
    · simp only [h, if_true]
      have := ih e.u (batch ++ [e]) (iov + 2)
        (by simp only [List.length_append, List.length_singleton]; omega)
        (by simp only [List.length_append, List.length_singleton,
              List.length_cons, List.length_nil] at hcnt ⊢; omega)
      rw [this]
      simp only [List.append_assoc, List.singleton_append, List.length_cons,
        Prod.mk.injEq, eq_self_iff_true, true_and, and_true]
      omega
    · simp only [h, if_false]
      exact ih lastU batch iov hiov
        (by simp only [List.length_cons] at hcnt; omega)

lemma drainStrInner_small :
    ∀ (heap : List BufEntry) (lastU : Nat) (accB : List BufEntry) (size : Nat),
      size = linesBytes accB → accB.length + heap.length ≤ 63 →
      (∀ e ∈ accB, e.buf.length ≤ 510) → (∀ e ∈ heap, e.buf.length ≤ 510) →
      drainStrInner lastU (heap.map toStr) (accB.map toStr) size =
        ([], (drainSpec lastU heap).2,
          (accB ++ (drainSpec lastU heap).1).map toStr) := by
  intro heap
  induction heap with
  | nil => intro lastU accB size hsz hcnt hacc hheap; simp [drainStrInner, drainSpec]
  | cons e rest ih =>
    intro lastU accB size hsz hcnt hacc hheap
    have hszlt : size < strCapLimit := by
      have h1 : linesBytes accB ≤ accB.length * 511 := linesBytes_le accB hacc
      have h2 : accB.length ≤ 63 := by
        simp only [List.length_cons] at hcnt; omega
      have : accB.length * 511 ≤ 63 * 511 := Nat.mul_le_mul_right _ h2
      unfold strCapLimit
      omega
    simp only [List.map_cons, drainStrInner, drainSpec]
    rw [if_neg (by omega : ¬ ¬ size < strCapLimit)]
    by_cases h : lastU < e.u
    · simp only [toStr, h, if_true]
      have hmap : (accB.map toStr) ++ [(⟨e.u, e.first_seen, e.buf⟩ : StrEntry)] =
          (accB ++ [e]).map toStr := by
        simp [toStr]
      rw [hmap]
      have := ih e.u (accB ++ [e]) (size + e.buf.length + 1)
        (by
          simp only [linesBytes, List.map_append, List.sum_append,
            List.map_cons, List.sum_cons, List.map_nil, List.sum_nil] at *
          omega)
        (by simp only [List.length_append, List.length_singleton,
              List.length_cons, List.length_nil] at hcnt ⊢; omega)
        (by
          intro x hx
          rcases List.mem_append.mp hx with hx' | hx'
          · exact hacc x hx'
          · rw [List.mem_singleton.mp hx']
            exact hheap e (by simp))
        (fun x hx => hheap x (by simp [hx]))
      rw [this]
      simp [List.append_assoc]
    · simp only [toStr, h, if_false]
      exact ih lastU accB size hsz
        (by simp only [List.length_cons] at hcnt; omega) hacc
        (fun x hx => hheap x (by simp [hx]))

lemma DrainAll_small (lastU : Nat) (heap : List BufEntry)
    (hcnt : heap.length ≤ 63) :
    DrainAll lastU heap =
      (if (drainSpec lastU heap).1.isEmpty then []
        else [(drainSpec lastU heap).1],
       if (drainSpec lastU heap).1.isEmpty then lastU
        else (drainSpec lastU heap).2,
       []) := by
  cases heap with
  | nil => simp [DrainAll, drainOuter, drainSpec]
  | cons e rest =>
    unfold DrainAll
    simp only [List.length_cons]
    rw [drainOuter]
    rw [if_neg (by simp : ¬ (e :: rest).isEmpty = true)]
    rw [drainInner_small (e :: rest) lastU [] 0 (by simp)
      (by simpa using hcnt)]
    cases hq : (drainSpec lastU (e :: rest)).1 with
    | nil => simp [hq, drainOuter_empty]
    | cons a l => simp [hq, drainOuter_empty]

lemma DrainAllStr_small (lastU : Nat) (heap : List BufEntry)
    (hcnt : heap.length ≤ 63) (hsz : ∀ e ∈ heap, e.buf.length ≤ 510) :
    DrainAllStr lastU (heap.map toStr) =
      (if (drainSpec lastU heap).1.isEmpty then []
        else [(drainSpec lastU heap).1.map toStr],
       if (drainSpec lastU heap).1.isEmpty then lastU
        else (drainSpec lastU heap).2,
       []) := by
  cases heap with
  | nil => simp [DrainAllStr, drainStrOuter, drainSpec]
  | cons e rest =>
    unfold DrainAllStr
    simp only [List.map_cons, List.length_cons]
    rw [drainStrOuter]
    rw [if_neg (by simp : ¬ (toStr e :: rest.map toStr).isEmpty = true)]
    have h0 : (List.map toStr ([] : List BufEntry)) = [] := rfl
    have hinner := drainStrInner_small (e :: rest) lastU [] 0
      (by simp [linesBytes]) (by simpa using hcnt) (by simp) hsz
    simp only [List.map_cons] at hinner
    rw [← h0, hinner]
    cases hq : (drainSpec lastU (e :: rest)).1 with
    | nil => simp [hq, drainStrOuter_empty]
    | cons a l => simp [hq, drainStrOuter_empty]

lemma releaseAll_map_ready :
    ∀ (es : List BufEntry) (rings : List RingState),
      (releaseAll rings es).map (fun r => r.ready) =
        rings.map (fun r => r.ready) := by
  intro es
  induction es with
  | nil => intro rings; rfl
  | cons e tl ih =>
    intro rings
    simp only [releaseAll, List.foldl_cons]
    rw [show List.foldl _ _ tl = releaseAll
        (match rings.get? e.src with
          | none => rings
          | some r => rings.set e.src r.release) tl from rfl]
    rw [ih]
    cases hg : rings.get? e.src with
    | none => rfl
    | some r =>
      simp only
      rw [List.map_set]
      refine set_get?_self _ _ _ ?_
      rw [List.get?_map, hg]
      rfl

lemma step_produce (a : IovSys) (b : StrSys) (i : Nat) (p : List Char)
    (hrel : Rel a b) (hcnt : sysCount a ≤ 63) :
    Rel (stepIov a (.produce i p)) (stepStr b (.produce i p)) ∧
    sysCount (stepIov a (.produce i p)) ≤ sysCount a + 1 ∧
    (stepIov a (.produce i p)).heap = a.heap ∧
    (p.length ≤ 510 → sysSizesOk a → sysSizesOk (stepIov a (.produce i p))) := by
  obtain ⟨hq, hl, hh, hw⟩ := hrel
  simp only [stepIov, stepStr]
  cases hg : a.rings.get? i with
  | none =>
    have hgq : b.queues.get? i = none := by
      rw [hq, List.get?_map, hg]; rfl
    rw [hgq]
    dsimp only
    exact ⟨⟨hq, hl, hh, hw⟩, by omega, rfl, fun _ h => h⟩
  | some r =>
    have hgq : b.queues.get? i = some r.ready := by
      rw [hq, List.get?_map, hg]; rfl
    rw [hgq]
    dsimp only
    have hqlen : r.ready.length < kRingCapacity := by
      have h1 : r.ready.length ≤ (a.rings.map (fun x => x.ready.length)).sum :=
        get?_le_sum_map (fun x => x.ready.length) a.rings i r hg
      have : (a.rings.map (fun x => x.ready.length)).sum ≤ sysCount a := by
        unfold sysCount; omega
      unfold kRingCapacity
      omega
    rw [if_pos hqlen]
    have hsum := sum_map_set (fun x => x.ready.length) a.rings i
      (r.produce p) r hg
    refine ⟨⟨?_, hl, hh, hw⟩, ?_, rfl, ?_⟩
    · simp only [hq, List.map_set]
      rfl
    · unfold sysCount at *
      dsimp only at *
      have : (r.produce p).ready.length = r.ready.length + 1 := by
        simp [RingState.produce]
      omega
    · intro hp hok
      obtain ⟨hok1, hok2⟩ := hok
      refine ⟨?_, hok2⟩
      intro ps hps q hqmem
      simp only [List.map_set] at hps
      rcases List.mem_or_eq_of_mem_set hps with hmem | heq
      · exact hok1 ps hmem q hqmem
      · subst heq
        simp only [RingState.produce] at hqmem
        rcases List.mem_append.mp hqmem with hmem' | hmem'
        · refine hok1 r.ready ?_ q hmem'
          rw [List.mem_map]
          exact ⟨r, List.get?_mem hg, rfl⟩
        · rw [List.mem_singleton.mp hmem']
          exact hp

lemma ingestStep_facts (now : Nat) (a : IovSys) (b : StrSys) (i : Nat)
    (hrel : Rel a b) :
    Rel (ingestStep now a i) (ingestStepStr now b i) ∧
    sysCount (ingestStep now a i) ≤ sysCount a ∧
    (ingestStep now a i).lastU = a.lastU ∧
    (ingestStep now a i).writes = a.writes ∧
    (ingestStep now a i).rings.length = a.rings.length ∧
    (sysSizesOk a → sysSizesOk (ingestStep now a i)) := by
  obtain ⟨hq, hl, hh, hw⟩ := hrel
  unfold ingestStep ingestStepStr
  cases hg : a.rings.get? i with
  | none =>
    have hgq : b.queues.get? i = none := by
      rw [hq, List.get?_map, hg]; rfl
    rw [hgq]
    exact ⟨⟨hq, hl, hh, hw⟩, le_rfl, rfl, rfl, rfl, fun h => h⟩
  | some r =>
    have hgq : b.queues.get? i = some r.ready := by
      rw [hq, List.get?_map, hg]; rfl
    rw [hgq]
    dsimp only
    have hsum := sum_map_set (fun x => x.ready.length) a.rings i
      { r with ready := [] } r hg
    have hreadymem : r.ready ∈ a.rings.map (fun x => x.ready) :=
      List.mem_map.mpr ⟨r, List.get?_mem hg, rfl⟩
    refine ⟨⟨?_, hl, ?_, hw⟩, ?_, rfl, rfl, by simp, ?_⟩
    · rw [hq, List.map_set]
    · rw [hl, hh]
      exact (ingestRing_toStr now i a.lastU r.ready a.heap).symm
    · unfold sysCount at *
      dsimp only at *
      have hlen := ingestRing_length now i a.lastU r.ready a.heap
      simp only [List.length_nil] at hsum
      omega
    · intro hok
      obtain ⟨hok1, hok2⟩ := hok
      constructor
      · intro ps hps q hqmem
        dsimp only at hps
        rw [List.map_set] at hps
        rcases List.mem_or_eq_of_mem_set hps with hmem | heq
        · exact hok1 ps hmem q hqmem
        · subst heq
          simp at hqmem
      · dsimp only
        exact ingestRing_sizes now i a.lastU r.ready a.heap
          (fun p hp => hok1 r.ready hreadymem p hp) hok2

lemma ingest_fold (now : Nat) :
    ∀ (idxs : List Nat) (a : IovSys) (b : StrSys), Rel a b →
      Rel (idxs.foldl (ingestStep now) a) (idxs.foldl (ingestStepStr now) b) ∧
      sysCount (idxs.foldl (ingestStep now) a) ≤ sysCount a ∧
      (idxs.foldl (ingestStep now) a).lastU = a.lastU ∧
      (idxs.foldl (ingestStep now) a).writes = a.writes ∧
      (idxs.foldl (ingestStep now) a).rings.length = a.rings.length ∧
      (sysSizesOk a → sysSizesOk (idxs.foldl (ingestStep now) a)) := by
  intro idxs
  induction idxs with
  | nil => intro a b hrel; exact ⟨hrel, le_rfl, rfl, rfl, rfl, fun h => h⟩
  | cons i tl ih =>
    intro a b hrel
    have hstep := ingestStep_facts now a b i hrel
    have hrest := ih (ingestStep now a i) (ingestStepStr now b i) hstep.1
    simp only [List.foldl_cons]
    refine ⟨hrest.1, ?_, ?_, ?_, ?_, ?_⟩
    · exact le_trans hrest.2.1 hstep.2.1
    · rw [hrest.2.2.1, hstep.2.2.1]
    · rw [hrest.2.2.2.1, hstep.2.2.2.1]
    · rw [hrest.2.2.2.2.1, hstep.2.2.2.2.1]
    · intro h
      exact hrest.2.2.2.2.2 (hstep.2.2.2.2.2 h)

lemma IngestQueues_facts (now : Nat) (a : IovSys) (b : StrSys) (hrel : Rel a b) :
    Rel (IngestQueues now a) (IngestQueuesStr now b) ∧
    sysCount (IngestQueues now a) ≤ sysCount a ∧
    (IngestQueues now a).lastU = a.lastU ∧
    (IngestQueues now a).writes = a.writes ∧
    (sysSizesOk a → sysSizesOk (IngestQueues now a)) := by
  have hlen : b.queues.length = a.rings.length := by
    rw [hrel.1, List.length_map]
  unfold IngestQueues IngestQueuesStr
  rw [hlen]
  have := ingest_fold now (List.range a.rings.length) a b hrel
  exact ⟨this.1, this.2.1, this.2.2.1, this.2.2.2.1, this.2.2.2.2.2⟩

lemma releaseAll_ready_lengths (es : List BufEntry) (rings : List RingState) :
    (releaseAll rings es).map (fun r => r.ready.length) =
      rings.map (fun r => r.ready.length) := by
  have h := releaseAll_map_ready es rings
  have h1 : ∀ (l : List RingState),
      l.map (fun r => r.ready.length) =
        (l.map (fun r => r.ready)).map (fun q => q.length) := by
    intro l; rw [List.map_map]; rfl
  rw [h1, h1, h]

lemma step_pass (now : Nat) (a : IovSys) (b : StrSys)
    (hrel : Rel a b) (hcnt : sysCount a ≤ 63) (hsz : sysSizesOk a) :
    Rel (stepIov a (.pass now)) (stepStr b (.pass now)) ∧
    sysCount (stepIov a (.pass now)) ≤ sysCount a ∧
    sysSizesOk (stepIov a (.pass now)) := by
  have hing := IngestQueues_facts now a b hrel
  set a' := IngestQueues now a with ha'
  set b' := IngestQueuesStr now b with hb'
  obtain ⟨hq', hl', hh', hw'⟩ := hing.1
  have hcnt' : sysCount a' ≤ sysCount a := hing.2.1
  have hsz' : sysSizesOk a' := hing.2.2.2.2 hsz
  have hheaplen : a'.heap.length ≤ 63 := by
    unfold sysCount at *
    omega
  have hflush := FlushReady_small now a'.lastU a'.heap hheaplen
  have hflushStr := FlushReadyStr_small now a'.lastU a'.heap hheaplen hsz'.2
  have hspec := flushSpec_heap now a'.heap a'.lastU
  simp only [stepIov, stepStr]
  unfold flushSys flushSysStr
  rw [← ha', ← hb', hl', hh', hflushStr, hflush]
  cases hem : (flushSpec now a'.lastU a'.heap).1 with
  | nil =>
    rw [hem] at hspec
    simp only [List.isEmpty_nil, if_true, List.map_nil]
    refine ⟨⟨?_, rfl, rfl, ?_⟩, ?_, ?_, ?_⟩
    · dsimp only
      rw [releaseAll_map_ready]
      exact hq'
    · rw [hw']
      simp
    · unfold sysCount
      dsimp only
      rw [List.flatten_nil, releaseAll_ready_lengths]
      unfold sysCount at hcnt' hcnt
      have := hspec.1
      omega
    · intro ps hps q hq
      dsimp only at hps
      rw [List.flatten_nil, releaseAll_map_ready] at hps
      exact hsz'.1 ps hps q hq
    · intro e he
      dsimp only at he
      exact hsz'.2 e (hspec.2.1 e he)
  | cons x l =>
    rw [hem] at hspec
    simp only [List.isEmpty_cons, if_false, Bool.false_eq_true]
    refine ⟨⟨?_, rfl, rfl, ?_⟩, ?_, ?_, ?_⟩
    · dsimp only
      rw [releaseAll_map_ready]
      exact hq'
    · rw [hw']
      simp
    · unfold sysCount
      dsimp only
      rw [releaseAll_ready_lengths]
      unfold sysCount at hcnt' hcnt
      have := hspec.1
      omega
    · intro ps hps q hq
      dsimp only at hps
      rw [releaseAll_map_ready] at hps
      exact hsz'.1 ps hps q hq
    · intro e he
      dsimp only at he
      exact hsz'.2 e (hspec.2.1 e he)

lemma step_drain (a : IovSys) (b : StrSys)
    (hrel : Rel a b) (hcnt : sysCount a ≤ 63) (hsz : sysSizesOk a) :
    Rel (stepIov a .drain) (stepStr b .drain) ∧
    sysCount (stepIov a .drain) ≤ sysCount a ∧
    sysSizesOk (stepIov a .drain) := by
  obtain ⟨hq, hl, hh, hw⟩ := hrel
  have hheaplen : a.heap.length ≤ 63 := by
    unfold sysCount at *
    omega
  have hdrain := DrainAll_small a.lastU a.heap hheaplen
  have hdrainStr := DrainAllStr_small a.lastU a.heap hheaplen hsz.2
  simp only [stepIov, stepStr]
  unfold drainSys drainSysStr
  rw [hl, hh, hdrainStr, hdrain]
  cases hem : (drainSpec a.lastU a.heap).1 with
  | nil =>
    simp only [List.isEmpty_nil, if_true, List.map_nil]
    refine ⟨⟨?_, rfl, rfl, ?_⟩, ?_, ?_, ?_⟩
    · dsimp only
      rw [releaseAll_map_ready]
      exact hq
    · rw [hw]
      simp
    · unfold sysCount at *
      dsimp only
      rw [releaseAll_ready_lengths]
      simp only [List.length_nil]
      omega
    · intro ps hps q hqm
      dsimp only at hps
      rw [releaseAll_map_ready] at hps
      exact hsz.1 ps hps q hqm
    · intro e he
      dsimp only at he
      simp at he
  | cons x l =>
    simp only [List.isEmpty_cons, if_false, Bool.false_eq_true]
    refine ⟨⟨?_, rfl, rfl, ?_⟩, ?_, ?_, ?_⟩
    · dsimp only
      rw [releaseAll_map_ready]
      exact hq
    · rw [hw]
      simp
    · unfold sysCount at *
      dsimp only
      rw [releaseAll_ready_lengths]
      simp only [List.length_nil]
      omega
    · intro ps hps q hqm
      dsimp only at hps
      rw [releaseAll_map_ready] at hps
      exact hsz.1 ps hps q hqm
    · intro e he
      dsimp only at he
      simp at he

lemma sizesOk_cons_produce (i : Nat) (p : List Char) (t : List Act)
    (h : sizesOk (Act.produce i p :: t) = true) :
    p.length ≤ 510 ∧ sizesOk t = true := by
  simpa [sizesOk, Bool.and_eq_true, decide_eq_true_iff] using h

lemma run_equiv :
    ∀ (acts : List Act) (a : IovSys) (b : StrSys),
      Rel a b → sysSizesOk a → sizesOk acts = true →
      sysCount a + producesCount acts ≤ 63 →
      Rel (runIov acts a) (runStr acts b) ∧
      sysSizesOk (runIov acts a) ∧
      sysCount (runIov acts a) ≤ sysCount a + producesCount acts := by
  intro acts
  induction acts with
  | nil =>
    intro a b hrel hsz _ hcnt
    refine ⟨hrel, hsz, ?_⟩
    simp [runIov, producesCount]
  | cons act tl ih =>
    intro a b hrel hsz hszok hcnt
    cases act with
    | produce i p =>
      obtain ⟨hp, htl⟩ := sizesOk_cons_produce i p tl hszok
      have hcnta : sysCount a ≤ 63 := by
        simp only [producesCount] at hcnt
        omega
      have hstep := step_produce a b i p ⟨hrel.1, hrel.2.1, hrel.2.2.1, hrel.2.2.2⟩ hcnta
      have hrec := ih (stepIov a (.produce i p)) (stepStr b (.produce i p))
        hstep.1 (hstep.2.2.2 hp hsz) htl
        (by
          have := hstep.2.1
          simp only [producesCount] at hcnt ⊢
          omega)
      simp only [runIov, runStr, List.foldl_cons] at *
      refine ⟨hrec.1, hrec.2.1, ?_⟩
      have h1 := hrec.2.2
      have h2 := hstep.2.1
      simp only [producesCount] at hcnt ⊢
      omega
    | pass now =>
      have hcnta : sysCount a ≤ 63 := by
        simp only [producesCount] at hcnt
        omega
      have hstep := step_pass now a b hrel hcnta hsz
      have hrec := ih (stepIov a (.pass now)) (stepStr b (.pass now))
        hstep.1 hstep.2.2 (by simpa [sizesOk] using hszok)
        (by
          have := hstep.2.1
          simp only [producesCount] at hcnt ⊢
          omega)
      simp only [runIov, runStr, List.foldl_cons] at *
      refine ⟨hrec.1, hrec.2.1, ?_⟩
      have h1 := hrec.2.2
      have h2 := hstep.2.1
      simp only [producesCount] at hcnt ⊢
      omega
    | drain =>
      have hcnta : sysCount a ≤ 63 := by
        simp only [producesCount] at hcnt
        omega
      have hstep := step_drain a b hrel hcnta hsz
      have hrec := ih (stepIov a .drain) (stepStr b .drain)
        hstep.1 hstep.2.2 (by simpa [sizesOk] using hszok)
        (by
          have := hstep.2.1
          simp only [producesCount] at hcnt ⊢
          omega)
      simp only [runIov, runStr, List.foldl_cons] at *
      refine ⟨hrec.1, hrec.2.1, ?_⟩
      have h1 := hrec.2.2
      have h2 := hstep.2.1
      simp only [producesCount] at hcnt ⊢
      omega

/-- C4 (amended): the two merger implementations are observationally
equivalent on every action sequence — identical payloads, merger-arrival
times and flush times for both — that publishes fewer than 64 payloads in
total, each at most 510 bytes: the string-buffered merger's write log is
exactly the (source-index-erased) write log of the iovec merger, so both
write the same payload lines and the same `u` sequence.  (In general the two
are not equivalent — see the counterexample.) -/
theorem C4_equivalence_small_runs (acts : List Act) (n : Nat)
    (hsz : sizesOk acts = true) (hcnt : producesCount acts ≤ 63) :
    (runStr acts (StrSys.init n)).writes =
      (runIov acts (IovSys.init n)).writes.map (List.map toStr) ∧
    outputUsStr (runStr acts (StrSys.init n)) =
      outputUs (runIov acts (IovSys.init n)) := by
  have hrel0 : Rel (IovSys.init n) (StrSys.init n) := by
    refine ⟨?_, rfl, rfl, rfl⟩
    simp [IovSys.init, StrSys.init, List.map_replicate, RingState.init]
  have hsz0 : sysSizesOk (IovSys.init n) := by
    constructor
    · intro ps hps q hq
      simp [IovSys.init, List.map_replicate, RingState.init] at hps
      rw [hps.2] at hq
      simp at hq
    · intro e he
      simp [IovSys.init] at he
  have hcnt0 : sysCount (IovSys.init n) + producesCount acts ≤ 63 := by
    have : sysCount (IovSys.init n) = 0 := by
      simp [sysCount, IovSys.init, List.map_replicate, RingState.init]
    omega
  have h := run_equiv acts (IovSys.init n) (StrSys.init n) hrel0 hsz0 hsz hcnt0
  have hwrites := h.1.2.2.2
  refine ⟨hwrites, ?_⟩
  unfold outputUsStr outputUs
  rw [hwrites, ← List.map_flatten]
  rw [List.map_map]
  rfl

/-- Witness for `C4_equivalence_small_runs`: a one-payload script with an
aged flush and a drain. -/
theorem C4_equivalence_small_runs_witness :
    sizesOk actsSmall = true ∧ producesCount actsSmall ≤ 63 ∧
    (runStr actsSmall (StrSys.init 1)).writes =
      (runIov actsSmall (IovSys.init 1)).writes.map (List.map toStr) :=
  ⟨by decide, by decide,
    (C4_equivalence_small_runs actsSmall 1 (by decide) (by decide)).1⟩

end BinanceWs
